import Mathlib

/-!
Verification of the stream-parsing and progress-tracking logic of the
calculus learning client.

Texts are modelled as `List Char` (a stream chunk is one list; the whole
stream is the concatenation of its chunks).  The definitions below are
shallow embeddings of the TypeScript sources:

* `stepChunk` / `runChunks` embed the per-chunk loop of
  `streamContentGeneration` (`src/calculus-client/src/app/api/contentGenerationApi.ts`):
  marker extraction for `TOPIC:` and `DEPTH_INCREMENT:` over the
  accumulated buffer, and the raw forwarding of every chunk to `onChunk`.
* `planStep` / `runPlan` embed the `onChunk` handler of
  `handleLearningPlanQuery` (`src/calculus-client/src/app/(homepage)/page.tsx`)
  together with the chunk loop of `streamLearningPlanQuery`
  (`src/calculus-client/src/app/api/learningPlanApi.ts`).
* `codeExtract` embeds the end-of-stream payload extraction of
  `streamLearningPlanQuery`.
* `Store` and its operations embed the zustand store of
  `src/calculus-client/src/app/context/contentGenerationStore.tsx`.
* `ConceptProgress` operations are modelled from the spec (the server
  sources are not part of the repository snapshot).
-/

namespace CalcAgent

/-- JavaScript whitespace (the `\s` character class of regular expressions
and the set trimmed by `String.prototype.trim`). -/
def isJsWs (c : Char) : Bool :=
  c.toNat == 9 || c.toNat == 10 || c.toNat == 11 || c.toNat == 12 ||
  c.toNat == 13 || c.toNat == 32 || c.toNat == 160 || c.toNat == 5760 ||
  (8192 ≤ c.toNat && c.toNat ≤ 8202) || c.toNat == 8232 ||
  c.toNat == 8233 || c.toNat == 8239 || c.toNat == 8287 ||
  c.toNat == 12288 || c.toNat == 65279

/-- The `\d` character class: an ASCII digit. -/
def isDig (c : Char) : Bool :=
  48 ≤ c.toNat && c.toNat ≤ 57

/-- `pre tok l` is true when `tok` is a prefix of `l`. -/
def pre : List Char → List Char → Bool
  | [], _ => true
  | _ :: _, [] => false
  | a :: as, b :: bs => if a = b then pre as bs else false

/-- `hasTok tok l`: `tok` occurs as a contiguous substring of `l`
(JavaScript `String.prototype.includes`). -/
def hasTok (tok : List Char) : List Char → Bool
  | [] => pre tok []
  | c :: t => pre tok (c :: t) || hasTok tok t

/-- Remove the first occurrence of `tok` from `l`
(JavaScript `String.prototype.replace` with an empty replacement). -/
def removeFirst (tok : List Char) : List Char → List Char
  | [] => []
  | c :: t => if pre tok (c :: t) then List.drop tok.length (c :: t)
              else c :: removeFirst tok t

/-- The part of `l` before the first occurrence of `tok`
(`l` itself when `tok` does not occur: JavaScript `split(tok)[0]`). -/
def beforeFirst (tok : List Char) : List Char → List Char
  | [] => []
  | c :: t => if pre tok (c :: t) then [] else c :: beforeFirst tok t

/-- Trim JavaScript whitespace from both ends
(`String.prototype.trim`). -/
def trimBoth (l : List Char) : List Char :=
  ((l.dropWhile isJsWs).reverse.dropWhile isJsWs).reverse

/-- Split on every `'\n'` (JavaScript `split("\n")`): the list of lines,
keeping empty segments, so the result is never empty. -/
def linesOf : List Char → List (List Char)
  | [] => [[]]
  | c :: t =>
    match linesOf t with
    | [] => [[]]
    | h :: r => if c = '\n' then [] :: h :: r else (c :: h) :: r

/-- The marker prefix of topic lines. -/
def topicTok : List Char := "TOPIC:".data

/-- The marker prefix of depth lines. -/
def depthTok : List Char := "DEPTH_INCREMENT:".data

/-- The learning-plan sentinel token. -/
def sentinelTok : List Char := "FINAL_PLAN".data

/-- The JavaScript regular expression `/DEPTH_INCREMENT:\s*(\d)/` applied
to one line: scan for the leftmost starting position where the literal
`DEPTH_INCREMENT:` is followed by optional whitespace and a digit, and
return that digit's value. -/
def depthMatch : List Char → Option Nat
  | [] => none
  | c :: t =>
    if pre depthTok (c :: t) then
      match (List.drop depthTok.length (c :: t)).dropWhile isJsWs with
      | d :: _ => if isDig d then some (d.toNat - 48) else depthMatch t
      | [] => depthMatch t
    else depthMatch t

/-- JavaScript truthiness of an optional string: `undefined`/`null` and
the empty string are falsy. -/
def strFalsy : Option (List Char) → Bool
  | none => true
  | some [] => true
  | some (_ :: _) => false

/-- The per-stream parse state of `streamContentGeneration`:
the accumulated buffer, the extracted topic name, the depth increment
(default 1) and the concatenation of the chunks forwarded to `onChunk`. -/
structure StreamState where
  fullContent : List Char
  topicName : Option (List Char)
  depthIncrement : Nat
  displayed : List Char
deriving DecidableEq

/-- One iteration of the read loop of `streamContentGeneration`
(contentGenerationApi.ts, lines 67-101): skip empty chunks, append to the
buffer, re-scan the whole buffer for the first `TOPIC:` line (while the
topic is still falsy) and the first `DEPTH_INCREMENT:` line (while the
increment is still 1), and forward the raw chunk. -/
def stepChunk (s : StreamState) (chunk : List Char) : StreamState :=
  if chunk = [] then s else
  let fc := s.fullContent ++ chunk
  let tn :=
    if strFalsy s.topicName && hasTok topicTok fc then
      match (linesOf fc).find? (fun l => hasTok topicTok l) with
      | some l => some (trimBoth (removeFirst topicTok l))
      | none => s.topicName
    else s.topicName
  let di :=
    if s.depthIncrement == 1 && hasTok depthTok fc then
      match (linesOf fc).find? (fun l => hasTok depthTok l) with
      | some l =>
        match depthMatch l with
        | some d => d
        | none => s.depthIncrement
      | none => s.depthIncrement
    else s.depthIncrement
  ⟨fc, tn, di, s.displayed ++ chunk⟩

/-- Initial parse state of one content stream. -/
def initStream : StreamState := ⟨[], none, 1, []⟩

/-- Run `streamContentGeneration`'s loop over a whole chunk sequence; at
stream end the extracted `topicName` and `depthIncrement` are handed to
`onComplete`. -/
def runChunks (chunks : List (List Char)) : StreamState :=
  chunks.foldl stepChunk initStream

/-- Concatenation of a chunk sequence: the text of the whole stream. -/
def joinL (chunks : List (List Char)) : List Char :=
  chunks.foldr (· ++ ·) []

/-- The first line of `T` that contains `tok`. -/
def firstMarkerLine (tok T : List Char) : Option (List Char) :=
  (linesOf T).find? (fun l => hasTok tok l)

/-- Whole-text depth extraction: the digit matched on the first
`DEPTH_INCREMENT:` line. -/
def depthOfText (T : List Char) : Option Nat :=
  (firstMarkerLine depthTok T).bind depthMatch

/-- Whole-text topic extraction: the first `TOPIC:` line with the first
occurrence of the token removed, trimmed. -/
def topicOfText (T : List Char) : Option (List Char) :=
  (firstMarkerLine topicTok T).map (fun l => trimBoth (removeFirst topicTok l))

/-! ### Lemmas about the scanning primitives -/

theorem pre_iff {tok l : List Char} : pre tok l = true ↔ ∃ t, l = tok ++ t := by
  induction tok generalizing l with
  | nil => simp [pre]
  | cons a as ih =>
    cases l with
    | nil => simp [pre]
    | cons b bs =>
      by_cases hab : a = b
      · subst hab
        simp [pre, ih]
      · constructor
        · intro h; simp [pre, hab] at h
        · rintro ⟨t, ht⟩
          rw [List.cons_append] at ht
          injection ht with h1 h2
          exact absurd h1.symm hab

theorem pre_append {tok l : List Char} (e : List Char) (h : pre tok l = true) :
    pre tok (l ++ e) = true := by
  rcases pre_iff.mp h with ⟨t, rfl⟩
  exact pre_iff.mpr ⟨t ++ e, by simp⟩

theorem pre_length {tok l : List Char} (h : pre tok l = true) :
    tok.length ≤ l.length := by
  rcases pre_iff.mp h with ⟨t, rfl⟩
  simp

theorem pre_of_pre_append {tok l e : List Char} (h : pre tok (l ++ e) = true)
    (hlen : tok.length ≤ l.length) : pre tok l = true := by
  rcases pre_iff.mp h with ⟨t, ht⟩
  have h1 : (l ++ e).take tok.length = tok := by
    rw [ht]; simp
  have h2 : (l ++ e).take tok.length = l.take tok.length := by
    rw [List.take_append_of_le_length hlen]
  have h3 : l.take tok.length = tok := by rw [← h2, h1]
  refine pre_iff.mpr ⟨l.drop tok.length, ?_⟩
  conv_lhs => rw [← List.take_append_drop tok.length l]
  rw [h3]

theorem hasTok_append {tok l : List Char} (e : List Char)
    (h : hasTok tok l = true) : hasTok tok (l ++ e) = true := by
  induction l with
  | nil =>
    have htok : tok = [] := by
      cases tok with
      | nil => rfl
      | cons a as => simp [hasTok, pre] at h
    subst htok
    cases e with
    | nil => exact h
    | cons c t => simp [hasTok, pre]
  | cons c t ih =>
    simp only [hasTok, Bool.or_eq_true] at h
    rw [List.cons_append]
    simp only [hasTok, Bool.or_eq_true]
    rcases h with h | h
    · exact Or.inl (by simpa using pre_append e h)
    · exact Or.inr (ih h)

theorem hasTok_length {tok l : List Char} (h : hasTok tok l = true) :
    tok.length ≤ l.length := by
  induction l with
  | nil =>
    have htok : tok = [] := by
      cases tok with
      | nil => rfl
      | cons a as => simp [hasTok, pre] at h
    subst htok; simp
  | cons c t ih =>
    simp only [hasTok, Bool.or_eq_true] at h
    rcases h with h | h
    · exact pre_length h
    · exact le_trans (ih h) (by simp)

theorem hasTok_nil_of_ne {tok : List Char} (h : tok ≠ []) :
    hasTok tok [] = false := by
  cases tok with
  | nil => exact absurd rfl h
  | cons a as => simp [hasTok, pre]

theorem hasTok_cons_of_tail {tok : List Char} {c : Char} {t : List Char}
    (h : hasTok tok t = true) : hasTok tok (c :: t) = true := by
  simp [hasTok, h]

/-- Once `tok` occurs in `l`, the segment before its first occurrence is
unchanged by appending more text. -/
theorem beforeFirst_append {tok l : List Char} (e : List Char)
    (h : hasTok tok l = true) :
    beforeFirst tok (l ++ e) = beforeFirst tok l := by
  induction l with
  | nil =>
    cases tok with
    | nil =>
      cases e with
      | nil => rfl
      | cons c t => simp [beforeFirst, pre]
    | cons a as => simp [hasTok, pre] at h
  | cons c t ih =>
    simp only [hasTok, Bool.or_eq_true] at h
    by_cases hp : pre tok (c :: t) = true
    · have hp' : pre tok (c :: (t ++ e)) = true := by
        simpa using pre_append e hp
      rw [List.cons_append]
      simp [beforeFirst, hp', hp]
    · have hht : hasTok tok t = true := h.resolve_left hp
      have hp2 : ¬ pre tok (c :: (t ++ e)) = true := by
        intro hcon
        refine hp (pre_of_pre_append (e := e) ?_
          (le_trans (hasTok_length hht) (by simp)))
        simpa using hcon
      rw [List.cons_append]
      simp only [beforeFirst]
      rw [if_neg hp2, if_neg hp]
      congr 1
      exact ih hht

theorem linesOf_ne_nil (l : List Char) : linesOf l ≠ [] := by
  cases l with
  | nil => simp [linesOf]
  | cons c t =>
    simp only [linesOf]
    rcases h : linesOf t with _ | ⟨h1, r⟩
    · simp
    · by_cases hc : c = '\n' <;> simp [hc]

theorem linesOf_cons_nl (t : List Char) :
    linesOf ('\n' :: t) = [] :: linesOf t := by
  rcases ht : linesOf t with _ | ⟨h, r⟩
  · exact absurd ht (linesOf_ne_nil t)
  · simp [linesOf, ht]

theorem linesOf_cons_of_ne {c : Char} (hc : c ≠ '\n') {t h : List Char}
    {r : List (List Char)} (ht : linesOf t = h :: r) :
    linesOf (c :: t) = (c :: h) :: r := by
  simp [linesOf, ht, hc]

/-- Appending to a text extends its last line and appends the remaining
lines of the suffix: the first line of `t ++ e` is the first line of `t`
possibly extended, and it is extended only when `t` is newline-free. -/
theorem linesOf_append_head {t : List Char} (e : List Char) {h : List Char}
    {r : List (List Char)} (hl : linesOf t = h :: r) :
    ∃ e0 r2, linesOf (t ++ e) = (h ++ e0) :: r2 ∧ (r = [] ∨ e0 = []) := by
  induction t generalizing h r with
  | nil =>
    simp only [linesOf, List.cons.injEq] at hl
    rcases hl with ⟨rfl, rfl⟩
    rcases hE : linesOf ([] ++ e) with _ | ⟨hE1, rE⟩
    · exact absurd hE (by simp [linesOf_ne_nil e])
    · exact ⟨hE1, rE, by simpa using hE, Or.inl rfl⟩
  | cons c t' ih =>
    rcases ht' : linesOf t' with _ | ⟨h', r'⟩
    · exact absurd ht' (linesOf_ne_nil t')
    · by_cases hc : c = '\n'
      · subst hc
        simp only [linesOf, ht', if_pos rfl, List.cons.injEq] at hl
        rcases hl with ⟨rfl, rfl⟩
        refine ⟨[], linesOf (t' ++ e), ?_, Or.inr rfl⟩
        rw [List.cons_append]
        simp only [linesOf]
        rcases hA : linesOf (t' ++ e) with _ | ⟨hA1, rA⟩
        · exact absurd hA (linesOf_ne_nil _)
        · simp
      · simp only [linesOf, ht', if_neg hc, List.cons.injEq] at hl
        rcases hl with ⟨rfl, rfl⟩
        rcases ih ht' with ⟨e0, r2, hEq, hOr⟩
        refine ⟨e0, r2, ?_, hOr⟩
        rw [List.cons_append]
        simp only [linesOf, hEq, if_neg hc]
        simp

/-- Splitting at an explicit newline boundary splits the line lists. -/
theorem linesOf_append_newline (T B : List Char) :
    linesOf (T ++ '\n' :: B) = linesOf T ++ linesOf B := by
  induction T with
  | nil => rw [List.nil_append, linesOf_cons_nl]; rfl
  | cons c T' ih =>
    rcases hT' : linesOf T' with _ | ⟨h, r⟩
    · exact absurd hT' (linesOf_ne_nil T')
    · rw [List.cons_append]
      simp only [linesOf, ih, hT']
      by_cases hc : c = '\n' <;> simp [hc]

/-- A token that contains no newline and is a prefix of `l` is a prefix of
the first line of `l`. -/
theorem pre_firstLine {tok : List Char} (hnl : ∀ c ∈ tok, c ≠ '\n') :
    ∀ {l h : List Char} {r : List (List Char)},
    pre tok l = true → linesOf l = h :: r → pre tok h = true := by
  induction tok with
  | nil => intro l h r _ _; rfl
  | cons a as ih =>
    intro l h r hp hl
    cases l with
    | nil => simp [pre] at hp
    | cons b bs =>
      simp only [pre] at hp
      by_cases hab : a = b
      · subst hab
        rw [if_pos rfl] at hp
        have ha : a ≠ '\n' := hnl a (by simp)
        rcases hbs : linesOf bs with _ | ⟨h', r'⟩
        · exact absurd hbs (linesOf_ne_nil bs)
        · simp only [linesOf, hbs, if_neg ha, List.cons.injEq] at hl
          rcases hl with ⟨rfl, rfl⟩
          simp only [pre, if_pos rfl]
          exact ih (fun c hc => hnl c (by simp [hc])) hp hbs
      · rw [if_neg hab] at hp; exact absurd hp (by simp)

/-- The first line of a text is a prefix of the text. -/
theorem linesOf_head_pre : ∀ {t h : List Char} {r : List (List Char)},
    linesOf t = h :: r → ∃ e, t = h ++ e := by
  intro t
  induction t with
  | nil =>
    intro h r hl
    simp only [linesOf, List.cons.injEq] at hl
    exact ⟨[], by simp [hl.1.symm]⟩
  | cons c t' ih =>
    intro h r hl
    rcases ht' : linesOf t' with _ | ⟨h', r'⟩
    · exact absurd ht' (linesOf_ne_nil t')
    · by_cases hc : c = '\n'
      · subst hc
        rw [linesOf_cons_nl, ht'] at hl
        injection hl with e1 e2
        exact ⟨'\n' :: t', by simp [← e1]⟩
      · rw [linesOf_cons_of_ne hc ht'] at hl
        injection hl with e1 e2
        rcases ih ht' with ⟨e, he⟩
        exact ⟨e, by rw [← e1, he]; simp⟩

/-- If the token occurs nowhere in the text, no line contains it. -/
theorem findLine_none {tok : List Char} (htok : tok ≠ [])
    {B : List Char} (h : hasTok tok B = false) :
    (linesOf B).find? (fun l => hasTok tok l) = none := by
  induction B with
  | nil =>
    simp only [linesOf]
    rw [List.find?_cons_of_neg _ (by simp [hasTok_nil_of_ne htok])]
    rfl
  | cons c t ih =>
    simp only [hasTok, Bool.or_eq_false_iff] at h
    rcases h with ⟨hp, hht⟩
    rcases ht : linesOf t with _ | ⟨h1, r⟩
    · exact absurd ht (linesOf_ne_nil t)
    · have iht := ih hht
      rw [ht] at iht
      by_cases hc : c = '\n'
      · subst hc
        rw [linesOf_cons_nl, ht, List.find?_cons, hasTok_nil_of_ne htok]
        exact iht
      · rw [linesOf_cons_of_ne hc ht]
        have hch : hasTok tok (c :: h1) = false := by
          rw [Bool.eq_false_iff]
          intro hcon
          rcases linesOf_head_pre ht with ⟨e3, he3⟩
          have h4 : hasTok tok ((c :: h1) ++ e3) = true := hasTok_append e3 hcon
          have h5 : hasTok tok (c :: t) = true := by
            rw [he3]; simpa using h4
          simp only [hasTok, Bool.or_eq_true] at h5
          rcases h5 with hx | hx
          · simp [hx] at hp
          · simp [hx] at hht
        have hh1 : hasTok tok h1 = false := by
          cases hx : hasTok tok h1
          · rfl
          · exact absurd (hasTok_cons_of_tail (c := c) hx) (by simp [hch])
        simp only [List.find?_cons, hh1, hch] at iht ⊢
        exact iht

/-- If a newline-free token occurs somewhere in the text, some line
contains it (and so `find?` succeeds). -/
theorem findLine_some {tok : List Char} (htok : tok ≠ [])
    (hnl : ∀ c ∈ tok, c ≠ '\n') {B : List Char} (h : hasTok tok B = true) :
    ∃ m, (linesOf B).find? (fun l => hasTok tok l) = some m := by
  induction B with
  | nil => rw [hasTok_nil_of_ne htok] at h; cases h
  | cons c t ih =>
    simp only [hasTok, Bool.or_eq_true] at h
    rcases ht : linesOf t with _ | ⟨h1, r⟩
    · exact absurd ht (linesOf_ne_nil t)
    · rcases h with hpre | hht
      · have hc : c ≠ '\n' := by
          cases tok with
          | nil => exact absurd rfl htok
          | cons a as =>
            simp only [pre] at hpre
            by_cases hab : a = c
            · subst hab; exact hnl a (by simp)
            · rw [if_neg hab] at hpre; exact absurd hpre (by simp)
        have hlines := linesOf_cons_of_ne hc ht
        have hpf : pre tok (c :: h1) = true := pre_firstLine hnl hpre hlines
        refine ⟨c :: h1, ?_⟩
        rw [hlines]
        exact List.find?_cons_of_pos _ (by simp [hasTok, hpf])
      · rcases ih hht with ⟨m, hm⟩
        rw [ht] at hm
        by_cases hc : c = '\n'
        · subst hc
          refine ⟨m, ?_⟩
          rw [linesOf_cons_nl, ht, List.find?_cons, hasTok_nil_of_ne htok]
          exact hm
        · rw [linesOf_cons_of_ne hc ht]
          by_cases hch : hasTok tok (c :: h1) = true
          · exact ⟨c :: h1, List.find?_cons_of_pos _ hch⟩
          · have hchf : hasTok tok (c :: h1) = false := by
              rw [Bool.eq_false_iff]; exact hch
            have hh1 : hasTok tok h1 = false := by
              cases hx : hasTok tok h1
              · rfl
              · exact absurd (hasTok_cons_of_tail (c := c) hx) hch
            refine ⟨m, ?_⟩
            simp only [List.find?_cons, hh1] at hm
            simp only [List.find?_cons, hchf]
            exact hm

/-- The first token-holding line survives appending more text: it is at
the same position, possibly extended (when it was the last line). -/
theorem findLine_extend {tok : List Char} (htok : tok ≠ [])
    {B : List Char} (E : List Char) {m : List Char}
    (h : (linesOf B).find? (fun l => hasTok tok l) = some m) :
    ∃ e, (linesOf (B ++ E)).find? (fun l => hasTok tok l) = some (m ++ e) := by
  induction B generalizing m with
  | nil =>
    simp only [linesOf, List.find?_cons, hasTok_nil_of_ne htok,
      List.find?_nil] at h
    exact Option.noConfusion h
  | cons c t ih =>
    rcases ht : linesOf t with _ | ⟨h1, r⟩
    · exact absurd ht (linesOf_ne_nil t)
    · by_cases hc : c = '\n'
      · subst hc
        rw [linesOf_cons_nl, ht, List.find?_cons, hasTok_nil_of_ne htok] at h
        have h' : (linesOf t).find? (fun l => hasTok tok l) = some m := by
          rw [ht]; exact h
        rcases ih h' with ⟨e, he⟩
        refine ⟨e, ?_⟩
        rw [List.cons_append, linesOf_cons_nl, List.find?_cons,
          hasTok_nil_of_ne htok]
        exact he
      · rw [linesOf_cons_of_ne hc ht] at h
        rcases linesOf_append_head E ht with ⟨e0, r2, hEq, hOr⟩
        by_cases hch : hasTok tok (c :: h1) = true
        · rw [List.find?_cons_of_pos _ hch] at h
          injection h with h
          subst h
          refine ⟨e0, ?_⟩
          rw [List.cons_append, linesOf_cons_of_ne hc hEq, List.cons_append]
          refine List.find?_cons_of_pos _ ?_
          have h4 := hasTok_append e0 hch
          simpa using h4
        · have hchf : hasTok tok (c :: h1) = false := by
            rw [Bool.eq_false_iff]; exact hch
          have hh1 : hasTok tok h1 = false := by
            cases hx : hasTok tok h1
            · rfl
            · exact absurd (hasTok_cons_of_tail (c := c) hx) hch
          simp only [List.find?_cons, hchf] at h
          rcases hOr with hr | he0
          · subst hr; simp [List.find?_nil] at h
          · subst he0
            have hEq' : linesOf (t ++ E) = h1 :: r2 := by simpa using hEq
            have h' : (linesOf t).find? (fun l => hasTok tok l) = some m := by
              rw [ht, List.find?_cons, hh1]; exact h
            rcases ih h' with ⟨e, he⟩
            refine ⟨e, ?_⟩
            rw [List.cons_append, linesOf_cons_of_ne hc hEq']
            have he2 : List.find? (fun l => hasTok tok l) r2 = some (m ++ e) := by
              rw [hEq', List.find?_cons, hh1] at he
              exact he
            simp only [List.find?_cons, hchf]
            exact he2

theorem depthTok_ne_nil : depthTok ≠ [] := by decide

theorem depthTok_not_ws : ∀ c ∈ depthTok, isJsWs c = false := by decide

/-- A text consisting only of whitespace matches no depth marker. -/
theorem depthMatch_allWs {v : List Char} (h : ∀ c ∈ v, isJsWs c = true) :
    depthMatch v = none := by
  induction v with
  | nil => rfl
  | cons c v' ih =>
    have hp : pre depthTok (c :: v') = false := by
      rw [Bool.eq_false_iff]
      intro hcon
      rcases pre_iff.mp hcon with ⟨t, ht⟩
      have hD : depthTok = 'D' :: "EPTH_INCREMENT:".data := by decide
      rw [hD, List.cons_append] at ht
      injection ht with e1 e2
      have := h c (by simp)
      rw [e1] at this
      exact absurd this (by decide)
    simp only [depthMatch, hp, Bool.false_eq_true, if_false]
    exact ih (fun c hc => h c (by simp [hc]))

/-- A text shorter than the depth marker followed by pure whitespace
matches no depth marker. -/
theorem depthMatch_short_ws {u v : List Char}
    (hu : u.length < depthTok.length) (hv : ∀ c ∈ v, isJsWs c = true) :
    depthMatch (u ++ v) = none := by
  induction u with
  | nil => exact depthMatch_allWs hv
  | cons a u' ih =>
    have hp : pre depthTok (a :: u' ++ v) = false := by
      rw [Bool.eq_false_iff]
      intro hcon
      rcases pre_iff.mp hcon with ⟨t, ht⟩
      have hvne : v ≠ [] := by
        intro hveq
        subst hveq
        have hlen := congrArg List.length ht
        simp only [List.length_append, List.length_nil] at hlen
        have h16 : depthTok.length = 16 := by decide
        omega
      rcases v with _ | ⟨d, v'⟩
      · exact absurd rfl hvne
      · have h1 : ((a :: u') ++ (d :: v'))[(a :: u').length]? = some d := by
          rw [List.getElem?_append_right (le_refl _)]
          simp
        have h2 : (depthTok ++ t)[(a :: u').length]? =
            depthTok[(a :: u').length]? := by
          rw [List.getElem?_append]
          rw [if_pos (by simpa using hu)]
        rw [ht] at h1
        rw [h2] at h1
        have hmem : d ∈ depthTok := List.getElem?_mem h1
        have := depthTok_not_ws d hmem
        have hd := hv d (by simp)
        rw [hd] at this
        exact Bool.noConfusion this
    rw [List.cons_append]
    rw [List.cons_append] at hp
    simp only [depthMatch, hp, Bool.false_eq_true, if_false]
    exact ih (by simp at hu ⊢; omega)

/-- A successful depth match needs strictly more characters than the
marker itself. -/
theorem depthMatch_length {l : List Char} {d : Nat}
    (h : depthMatch l = some d) : depthTok.length + 1 ≤ l.length := by
  induction l with
  | nil => exact Option.noConfusion h
  | cons c t ih =>
    by_cases hp : pre depthTok (c :: t) = true
    · rcases hdw : (List.drop depthTok.length (c :: t)).dropWhile isJsWs
        with _ | ⟨dd, rest⟩
      · simp only [depthMatch, hp, if_true, hdw] at h
        have := ih h
        simp only [List.length_cons]
        omega
      · have hne : List.drop depthTok.length (c :: t) ≠ [] := by
          intro hcon
          rw [hcon] at hdw
          exact List.noConfusion hdw
        have hlen : 1 ≤ (List.drop depthTok.length (c :: t)).length := by
          rcases hx : List.drop depthTok.length (c :: t) with _ | ⟨y, ys⟩
          · exact absurd hx hne
          · simp
        rw [List.length_drop] at hlen
        simp only [List.length_cons] at hlen ⊢
        omega
    · simp only [depthMatch, hp, Bool.false_eq_true, if_false] at h
      have := ih h
      simp only [List.length_cons]
      omega

/-- A successful depth match on a line is preserved when the line is
extended: the same leftmost match, with the same digit, still fires. -/
theorem depthMatch_append {l : List Char} (e : List Char) {d : Nat}
    (h : depthMatch l = some d) : depthMatch (l ++ e) = some d := by
  induction l with
  | nil => exact Option.noConfusion h
  | cons c t ih =>
    by_cases hp : pre depthTok (c :: t) = true
    · rcases pre_iff.mp hp with ⟨s, hs⟩
      have hdrop : List.drop depthTok.length (c :: t) = s := by
        rw [hs, List.drop_left]
      have hp' : pre depthTok ((c :: t) ++ e) = true := pre_append e hp
      have hdrop' : List.drop depthTok.length ((c :: t) ++ e) = s ++ e := by
        rw [List.drop_append_of_le_length (pre_length hp), hdrop]
      rcases hdw : s.dropWhile isJsWs with _ | ⟨dd, rest⟩
      · -- everything after the marker is whitespace: the original match
        -- would have had to come from the tail, which is impossible
        exfalso
        simp only [depthMatch, hp, if_true, hdrop, hdw] at h
        have hws : ∀ c ∈ s, isJsWs c = true := List.dropWhile_eq_nil_iff.mp hdw
        have ht : t = depthTok.tail ++ s := by
          have h2 := congrArg List.tail hs
          rw [List.tail_append_of_ne_nil depthTok_ne_nil] at h2
          simpa using h2
        have hnone : depthMatch t = none := by
          rw [ht]
          exact depthMatch_short_ws (by decide) hws
        rw [hnone] at h
        exact Option.noConfusion h
      · have hdw' : (s ++ e).dropWhile isJsWs = dd :: (rest ++ e) := by
          rw [List.dropWhile_append, hdw]
          simp
        by_cases hdig : isDig dd = true
        · simp only [depthMatch, hp, if_true, hdrop, hdw, hdig] at h
          rw [List.cons_append]
          simp only [depthMatch]
          rw [List.cons_append] at hp' hdrop'
          simp only [hp', if_true, hdrop', hdw', hdig, if_true]
          simpa using h
        · simp only [depthMatch, hp, if_true, hdrop, hdw, hdig,
            Bool.false_eq_true, if_false] at h
          have := ih h
          rw [List.cons_append]
          simp only [depthMatch]
          rw [List.cons_append] at hp' hdrop'
          simp only [hp', if_true, hdrop', hdw', hdig, Bool.false_eq_true,
            if_false]
          exact this
    · simp only [depthMatch, hp, Bool.false_eq_true, if_false] at h
      have hlen := depthMatch_length h
      have hp2 : pre depthTok (c :: (t ++ e)) = false := by
        rw [Bool.eq_false_iff]
        intro hcon
        refine hp (pre_of_pre_append (e := e) (by simpa using hcon) ?_)
        simp only [List.length_cons]
        omega
      rw [List.cons_append]
      simp only [depthMatch, hp2, Bool.false_eq_true, if_false]
      exact ih h

theorem topicTok_ne_nil : topicTok ≠ [] := by decide

theorem topicTok_no_nl : ∀ c ∈ topicTok, c ≠ '\n' := by decide

theorem depthTok_no_nl : ∀ c ∈ depthTok, c ≠ '\n' := by decide

/-- If some line of `B` holds the token, the token occurs in `B`. -/
theorem hasTok_of_findLine {tok : List Char} (htok : tok ≠ [])
    {B m : List Char}
    (h : (linesOf B).find? (fun l => hasTok tok l) = some m) :
    hasTok tok B = true := by
  induction B generalizing m with
  | nil =>
    simp only [linesOf, List.find?_cons, hasTok_nil_of_ne htok,
      List.find?_nil] at h
    exact Option.noConfusion h
  | cons c t ih =>
    rcases ht : linesOf t with _ | ⟨h1, r⟩
    · exact absurd ht (linesOf_ne_nil t)
    · by_cases hc : c = '\n'
      · subst hc
        rw [linesOf_cons_nl, ht, List.find?_cons, hasTok_nil_of_ne htok] at h
        have h' : (linesOf t).find? (fun l => hasTok tok l) = some m := by
          rw [ht]; exact h
        exact hasTok_cons_of_tail (ih h')
      · rw [linesOf_cons_of_ne hc ht] at h
        by_cases hch : hasTok tok (c :: h1) = true
        · rcases linesOf_head_pre ht with ⟨e, he⟩
          have h4 := hasTok_append e hch
          rw [he]
          simpa using h4
        · have hchf : hasTok tok (c :: h1) = false := by
            rw [Bool.eq_false_iff]; exact hch
          have hh1 : hasTok tok h1 = false := by
            cases hx : hasTok tok h1
            · rfl
            · exact absurd (hasTok_cons_of_tail (c := c) hx) hch
          simp only [List.find?_cons, hchf] at h
          have h' : (linesOf t).find? (fun l => hasTok tok l) = some m := by
            rw [ht, List.find?_cons, hh1]; exact h
          exact hasTok_cons_of_tail (ih h')

theorem joinL_append (xs ys : List (List Char)) :
    joinL (xs ++ ys) = joinL xs ++ joinL ys := by
  induction xs with
  | nil => simp [joinL]
  | cons c cs ih => simp only [joinL, List.cons_append, List.foldr_cons] at *
                    rw [ih, List.append_assoc]

theorem joinL_single (c : List Char) : joinL [c] = c := by
  simp [joinL]

theorem stepChunk_fullContent (s : StreamState) (c : List Char) :
    (stepChunk s c).fullContent = s.fullContent ++ c := by
  by_cases hc : c = []
  · subst hc; simp [stepChunk]
  · rw [stepChunk, if_neg hc]

theorem stepChunk_displayed (s : StreamState) (c : List Char) :
    (stepChunk s c).displayed = s.displayed ++ c := by
  by_cases hc : c = []
  · subst hc; simp [stepChunk]
  · rw [stepChunk, if_neg hc]

theorem stepChunk_depth (s : StreamState) {c : List Char} (hc : c ≠ []) :
    (stepChunk s c).depthIncrement =
      if s.depthIncrement == 1 && hasTok depthTok (s.fullContent ++ c) then
        match (linesOf (s.fullContent ++ c)).find? (fun l => hasTok depthTok l) with
        | some l =>
          match depthMatch l with
          | some d => d
          | none => s.depthIncrement
        | none => s.depthIncrement
      else s.depthIncrement := by
  rw [stepChunk, if_neg hc]

theorem stepChunk_topic (s : StreamState) {c : List Char} (hc : c ≠ []) :
    (stepChunk s c).topicName =
      if strFalsy s.topicName && hasTok topicTok (s.fullContent ++ c) then
        match (linesOf (s.fullContent ++ c)).find? (fun l => hasTok topicTok l) with
        | some l => some (trimBoth (removeFirst topicTok l))
        | none => s.topicName
      else s.topicName := by
  rw [stepChunk, if_neg hc]

/-- One chunk preserves the depth invariant: the current increment always
equals the whole-buffer extraction (with default 1). -/
theorem depth_inv_step (s : StreamState) (c : List Char)
    (h : s.depthIncrement = (depthOfText s.fullContent).getD 1) :
    (stepChunk s c).depthIncrement =
      (depthOfText (s.fullContent ++ c)).getD 1 := by
  by_cases hc : c = []
  · subst hc
    rw [List.append_nil]
    simpa [stepChunk] using h
  · rw [stepChunk_depth s hc]
    by_cases h1 : s.depthIncrement = 1
    · by_cases h2 : hasTok depthTok (s.fullContent ++ c) = true
      · rcases findLine_some depthTok_ne_nil depthTok_no_nl h2 with ⟨m, hm⟩
        rw [h1, hm]
        simp only [beq_self_eq_true, h2, Bool.and_self, if_true]
        unfold depthOfText firstMarkerLine
        rw [hm]
        cases hdm : depthMatch m
        · simp [hdm, h1]
        · simp [hdm]
      · have h2f : hasTok depthTok (s.fullContent ++ c) = false := by
          rw [Bool.eq_false_iff]; exact h2
        rw [h2f]
        simp only [Bool.and_false, Bool.false_eq_true, if_false]
        unfold depthOfText firstMarkerLine
        rw [findLine_none depthTok_ne_nil h2f]
        simp [h1]
    · have hb : (s.depthIncrement == 1) = false := by
        simp [h1]
      rw [hb]
      simp only [Bool.false_and, Bool.false_eq_true, if_false]
      rcases hdo : depthOfText s.fullContent with _ | d
      · rw [hdo] at h
        simp only [Option.getD_none] at h
        exact absurd h h1
      · rw [hdo] at h
        simp only [Option.getD_some] at h
        unfold depthOfText firstMarkerLine at hdo ⊢
        rcases Option.bind_eq_some.mp hdo with ⟨m, hm, hdm⟩
        rcases findLine_extend depthTok_ne_nil c hm with ⟨e, he⟩
        rw [he]
        simp only [Option.some_bind]
        rw [depthMatch_append e hdm]
        exact h

/-- The depth invariant for a whole run starting from any invariant
state. -/
theorem runChunks_depth_inv (chunks : List (List Char)) :
    ∀ s : StreamState,
    s.depthIncrement = (depthOfText s.fullContent).getD 1 →
    (List.foldl stepChunk s chunks).depthIncrement =
      (depthOfText (s.fullContent ++ joinL chunks)).getD 1 := by
  induction chunks with
  | nil => intro s h; simpa [joinL] using h
  | cons c cs ih =>
    intro s h
    have h1 := depth_inv_step s c h
    have h2 := ih (stepChunk s c) (by rw [stepChunk_fullContent]; exact h1)
    rw [List.foldl_cons]
    rw [h2, stepChunk_fullContent]
    have : joinL (c :: cs) = c ++ joinL cs := by simp [joinL]
    rw [this, List.append_assoc]

/-- The extracted depth increment of any chunked run is the whole-text
extraction with default 1. -/
theorem runChunks_depth (chunks : List (List Char)) :
    (runChunks chunks).depthIncrement = (depthOfText (joinL chunks)).getD 1 := by
  have h := runChunks_depth_inv chunks initStream (by decide)
  simpa [runChunks, initStream] using h

/-- What the client computes from one marker line: remove the first
occurrence of `TOPIC:`, then trim. -/
def topicFromLine (l : List Char) : List Char := trimBoth (removeFirst topicTok l)

/-- A chunk partition is topic-aligned when every partition prefix that
already shows a first `TOPIC:` line shows that line in full: the line
extracted from the prefix equals the first `TOPIC:` line of the whole
stream.  This fails exactly when a chunk boundary splits the first
`TOPIC:` line after its marker. -/
def topicAligned (chunks : List (List Char)) : Prop :=
  ∀ j, j ≤ chunks.length →
    firstMarkerLine topicTok (joinL (List.take j chunks)) = none ∨
    firstMarkerLine topicTok (joinL (List.take j chunks)) =
      firstMarkerLine topicTok (joinL chunks)

instance topicAlignedDec (chunks : List (List Char)) :
    Decidable (topicAligned chunks) :=
  Nat.decidableBallLE chunks.length _

theorem runChunks_fullContent (chunks : List (List Char)) :
    ∀ s : StreamState,
    (List.foldl stepChunk s chunks).fullContent = s.fullContent ++ joinL chunks := by
  induction chunks with
  | nil => intro s; simp [joinL]
  | cons c cs ih =>
    intro s
    rw [List.foldl_cons, ih, stepChunk_fullContent]
    have : joinL (c :: cs) = c ++ joinL cs := by simp [joinL]
    rw [this, List.append_assoc]

/-- Under alignment, after any partition prefix the extracted topic is the
whole-prefix extraction. -/
theorem runChunks_topic_inv (chunks : List (List Char))
    (hC : topicAligned chunks) :
    ∀ j, j ≤ chunks.length →
    (runChunks (List.take j chunks)).topicName =
      (firstMarkerLine topicTok (joinL (List.take j chunks))).map topicFromLine := by
  intro j
  induction j with
  | zero => intro _; rfl
  | succ n ihj =>
    intro hj
    have hn : n ≤ chunks.length := Nat.le_of_succ_le hj
    have ihn := ihj hn
    have hlt : n < chunks.length := hj
    have hget : chunks[n]? = some (chunks.get ⟨n, hlt⟩) := by
      rw [List.getElem?_eq_getElem hlt]; rfl
    have htake : List.take (n + 1) chunks =
        List.take n chunks ++ [chunks.get ⟨n, hlt⟩] := by
      rw [List.take_succ, hget]; rfl
    have hjoin : joinL (List.take (n + 1) chunks) =
        joinL (List.take n chunks) ++ chunks.get ⟨n, hlt⟩ := by
      rw [htake, joinL_append, joinL_single]
    have hrun : runChunks (List.take (n + 1) chunks) =
        stepChunk (runChunks (List.take n chunks)) (chunks.get ⟨n, hlt⟩) := by
      rw [htake]
      unfold runChunks
      rw [List.foldl_append]
      rfl
    set c := chunks.get ⟨n, hlt⟩ with hcdef
    set B := joinL (List.take n chunks) with hBdef
    have hfull : (runChunks (List.take n chunks)).fullContent = B := by
      have := runChunks_fullContent (List.take n chunks) initStream
      simpa [runChunks, initStream] using this
    by_cases hc : c = []
    · rw [hrun, hc]
      have hB : joinL (List.take (n + 1) chunks) = B := by
        rw [hjoin, hc, List.append_nil]
      rw [hB]
      simpa [stepChunk] using ihn
    · rw [hrun, hjoin]
      rw [show stepChunk (runChunks (List.take n chunks)) c =
        stepChunk (runChunks (List.take n chunks)) c from rfl]
      rw [stepChunk_topic _ hc, hfull]
      by_cases hst : strFalsy (runChunks (List.take n chunks)).topicName = true
      · by_cases hht : hasTok topicTok (B ++ c) = true
        · rcases findLine_some topicTok_ne_nil topicTok_no_nl hht with ⟨m, hm⟩
          rw [hst, hht]
          simp only [Bool.and_self, if_true]
          unfold firstMarkerLine
          rw [hm]
          rfl
        · have hhtf : hasTok topicTok (B ++ c) = false := by
            rw [Bool.eq_false_iff]; exact hht
          rw [hst, hhtf]
          simp only [Bool.and_false, Bool.false_eq_true, if_false]
          have hBf : hasTok topicTok B = false := by
            cases hx : hasTok topicTok B
            · rfl
            · exact absurd (hasTok_append c hx) (by simp [hhtf])
          unfold firstMarkerLine at ihn ⊢
          rw [findLine_none topicTok_ne_nil hhtf]
          rw [findLine_none topicTok_ne_nil hBf] at ihn
          simpa using ihn
      · have hstf : strFalsy (runChunks (List.take n chunks)).topicName = false := by
          rw [Bool.eq_false_iff]; exact hst
        rw [hstf]
        simp only [Bool.false_and, Bool.false_eq_true, if_false]
        rcases hfb : firstMarkerLine topicTok B with _ | m
        · rw [hfb] at ihn
          simp only [Option.map_none'] at ihn
          rw [ihn] at hstf
          exact absurd hstf (by simp [strFalsy])
        · rw [hfb] at ihn
          simp only [Option.map_some'] at ihn
          have hBtok : hasTok topicTok B = true := by
            apply hasTok_of_findLine topicTok_ne_nil (m := m)
            have := hfb
            unfold firstMarkerLine at this
            exact this
          have hBc : hasTok topicTok (B ++ c) = true := hasTok_append c hBtok
          rcases findLine_some topicTok_ne_nil topicTok_no_nl hBc with ⟨m2, hm2⟩
          have hCn := (hC n hn).resolve_left (by rw [← hBdef, hfb]; simp)
          rw [← hBdef, hfb] at hCn
          have hCsn := (hC (n + 1) hj).resolve_left
            (by rw [hjoin]; unfold firstMarkerLine; rw [hm2]; simp)
          rw [hjoin] at hCsn
          have hm2' : firstMarkerLine topicTok (B ++ c) = some m2 := by
            unfold firstMarkerLine; exact hm2
          rw [hm2'] at hCsn
          have hmm : m2 = m := Option.some.inj (hCsn.trans hCn.symm)
          rw [hm2', hmm, ihn]
          rfl

theorem depthMatch_le9 {l : List Char} {d : Nat} (h : depthMatch l = some d) :
    d ≤ 9 := by
  induction l with
  | nil => exact Option.noConfusion h
  | cons c t ih =>
    by_cases hp : pre depthTok (c :: t) = true
    · rcases hdw : (List.drop depthTok.length (c :: t)).dropWhile isJsWs
        with _ | ⟨dd, rest⟩
      · simp only [depthMatch, hp, if_true, hdw] at h
        exact ih h
      · by_cases hdig : isDig dd = true
        · simp only [depthMatch, hp, if_true, hdw, hdig] at h
          injection h with h
          simp only [isDig, Bool.and_eq_true, decide_eq_true_eq] at hdig
          omega
        · simp only [depthMatch, hp, if_true, hdw, hdig,
            Bool.false_eq_true, if_false] at h
          exact ih h
    · simp only [depthMatch, hp, Bool.false_eq_true, if_false] at h
      exact ih h

/-- Delivering the whole text as one chunk extracts the topic from the
first `TOPIC:` line of the text. -/
theorem runChunks_single_topic (T : List Char) :
    (runChunks [T]).topicName =
      (firstMarkerLine topicTok T).map topicFromLine := by
  have hC : topicAligned [T] := by
    intro j hj
    match j, hj with
    | 0, _ => exact Or.inl rfl
    | 1, _ => exact Or.inr rfl
  have h := runChunks_topic_inv [T] hC 1 (by simp)
  simpa [joinL] using h

/-- Delivering the whole text as one chunk extracts the depth from the
first `DEPTH_INCREMENT:` line of the text, with default 1. -/
theorem runChunks_single_depth (T : List Char) :
    (runChunks [T]).depthIncrement = (depthOfText T).getD 1 := by
  have h := runChunks_depth [T]
  simpa [joinL] using h

/-! ### Claim C1 -/

/-- C1, counterexample: the claim that marker extraction is invariant
under every chunk partition is false.  Splitting the stream
`"TOPIC: Intro\n"` into the chunks `"TOPIC: Int"` and `"ro\n"` makes
`streamContentGeneration` extract the truncated topic `"Int"`: the code
extracts as soon as `TOPIC:` appears in the buffer, without waiting for
the line's newline, and the `!topicName` guard then blocks re-extraction. -/
theorem c1_counterexample :
    joinL ["TOPIC: Int".data, "ro\n".data] = "TOPIC: Intro\n".data ∧
    (runChunks ["TOPIC: Int".data, "ro\n".data]).topicName ≠
      (runChunks ["TOPIC: Intro\n".data]).topicName := by decide

/-- C1 (amended): for every stream text and every partition of it into
chunks, the extracted depth increment equals that of the single-chunk
delivery; the extracted topic name also does, provided the partition is
topic-aligned (no chunk boundary splits the first `TOPIC:` line after
its marker — `topicAligned`).  Without that alignment the topic may be
truncated to the part of its line received when the marker first
appeared. -/
theorem c1_chunk_invariance_amended (chunks : List (List Char)) :
    (runChunks chunks).depthIncrement =
      (runChunks [joinL chunks]).depthIncrement ∧
    (topicAligned chunks →
      (runChunks chunks).topicName = (runChunks [joinL chunks]).topicName) := by
  constructor
  · rw [runChunks_depth, runChunks_single_depth]
  · intro hC
    have h1 := runChunks_topic_inv chunks hC chunks.length (le_refl _)
    rw [List.take_length] at h1
    rw [h1, runChunks_single_topic]

/-- Witness for C1 (amended) at a concrete aligned partition that splits
mid-`DEPTH_INCREMENT`. -/
theorem c1_witness :
    topicAligned ["TOPIC: Intro\nDEPTH_INCRE".data, "MENT: 2\nHi".data] ∧
    (runChunks ["TOPIC: Intro\nDEPTH_INCRE".data, "MENT: 2\nHi".data]).topicName =
      (runChunks [joinL ["TOPIC: Intro\nDEPTH_INCRE".data, "MENT: 2\nHi".data]]).topicName :=
  ⟨by decide,
   (c1_chunk_invariance_amended
     ["TOPIC: Intro\nDEPTH_INCRE".data, "MENT: 2\nHi".data]).2 (by decide)⟩

/-! ### Claim C2 -/

/-- The chunk sequence of the spec's end-to-end scenario A, split inside
`DEPTH_INCREMENT`. -/
def scenarioAChunks : List (List Char) :=
  ["TOPIC: Intro\nDEPTH_INCRE".data, "MENT: 1\nHello ".data, "world".data]

/-- C2, evaluation at the claim's own scenario: the code forwards every
chunk verbatim to `onChunk` and `appendContent` appends it unchanged, so
the displayed content is the raw stream with both marker lines still in
it — not `"Hello world"`.  No control-line stripping exists in the
implemented client, although the repository's client implementation plan
specifies it ("Remove TOPIC: and DEPTH_INCREMENT: lines from display"). -/
theorem c2_markers_reach_display :
    (runChunks scenarioAChunks).displayed =
      "TOPIC: Intro\nDEPTH_INCREMENT: 1\nHello world".data ∧
    (runChunks scenarioAChunks).topicName = some "Intro".data ∧
    (runChunks scenarioAChunks).depthIncrement = 1 ∧
    hasTok topicTok (runChunks scenarioAChunks).displayed = true ∧
    (runChunks scenarioAChunks).displayed ≠ "Hello world".data := by decide

/-! ### Claim C4 -/

/-- C4, counterexample: the extraction pattern is `\d`, not a digit
restricted to 1–3: the stream `"DEPTH_INCREMENT: 9\n"` yields the
increment 9. -/
theorem c4_counterexample :
    (runChunks ["DEPTH_INCREMENT: 9\n".data]).depthIncrement = 9 ∧
    ¬ (runChunks ["DEPTH_INCREMENT: 9\n".data]).depthIncrement ≤ 3 := by decide

/-- C4 (amended): the depth increment reported at stream end is the digit
(0–9, not 1–3) matched by `/DEPTH_INCREMENT:\s*(\d)/` on the first
`DEPTH_INCREMENT:` line of the whole stream — so the first marker wins
and later occurrences never overwrite it — and it defaults to 1 when no
marker matches by stream end. -/
theorem c4_depth_extraction_amended (chunks : List (List Char)) :
    (runChunks chunks).depthIncrement = (depthOfText (joinL chunks)).getD 1 ∧
    (depthOfText (joinL chunks) = none →
      (runChunks chunks).depthIncrement = 1) ∧
    (runChunks chunks).depthIncrement ≤ 9 := by
  refine ⟨runChunks_depth chunks, ?_, ?_⟩
  · intro h; rw [runChunks_depth, h]; rfl
  · rw [runChunks_depth]
    rcases hdo : depthOfText (joinL chunks) with _ | d
    · simp
    · unfold depthOfText at hdo
      rcases Option.bind_eq_some.mp hdo with ⟨m, _, hdm⟩
      simpa using depthMatch_le9 hdm

/-- Witness for C4 (amended) at a stream with no depth marker. -/
theorem c4_witness :
    (runChunks ["Hello\n".data]).depthIncrement =
      (depthOfText (joinL ["Hello\n".data])).getD 1 ∧
    (runChunks ["Hello\n".data]).depthIncrement = 1 ∧
    (runChunks ["Hello\n".data]).depthIncrement ≤ 9 :=
  ⟨(c4_depth_extraction_amended ["Hello\n".data]).1,
   (c4_depth_extraction_amended ["Hello\n".data]).2.1 (by decide),
   (c4_depth_extraction_amended ["Hello\n".data]).2.2⟩

/-! ### Claim C5 -/

/-- C5, counterexample: the extracted topic is not "the text following
`TOPIC:` on the first such line, trimmed": the code removes the first
occurrence of the token and keeps what was before it.  On
`"xTOPIC: A\nTOPIC: B\n"` (two `TOPIC:` lines) it extracts `"x A"`, not
`"A"`. -/
theorem c5_counterexample :
    (runChunks ["xTOPIC: A\nTOPIC: B\n".data]).topicName = some "x A".data ∧
    some "x A".data ≠ some "A".data := by decide

/-- C5 (amended): first match wins.  The extracted topic is the first
`TOPIC:` line of the stream with the first occurrence of the token
removed and the result trimmed (text before the token is retained), and
once the token has occurred, any later lines — including further
`TOPIC:` lines — have no effect on the extraction. -/
theorem c5_topic_first_match_amended (T B : List Char)
    (h : hasTok topicTok T = true) :
    (runChunks [T]).topicName =
      (firstMarkerLine topicTok T).map topicFromLine ∧
    (runChunks [T ++ '\n' :: B]).topicName =
      (runChunks [T ++ ['\n']]).topicName := by
  refine ⟨runChunks_single_topic T, ?_⟩
  rw [runChunks_single_topic, runChunks_single_topic]
  unfold firstMarkerLine
  rw [show T ++ ['\n'] = T ++ '\n' :: ([] : List Char) from rfl]
  rw [linesOf_append_newline, linesOf_append_newline]
  rw [List.find?_append, List.find?_append]
  rcases findLine_some topicTok_ne_nil topicTok_no_nl h with ⟨m, hm⟩
  rw [hm]
  rfl

/-- Witness for C5 (amended): a stream whose later lines contain a second
`TOPIC:` marker. -/
theorem c5_witness :
    (runChunks ["TOPIC: A".data]).topicName =
      (firstMarkerLine topicTok "TOPIC: A".data).map topicFromLine ∧
    (runChunks ["TOPIC: A".data ++ '\n' :: "TOPIC: B".data]).topicName =
      (runChunks ["TOPIC: A".data ++ ['\n']]).topicName :=
  c5_topic_first_match_amended "TOPIC: A".data "TOPIC: B".data (by decide)

/-! ### The learning-plan stream: sentinel detection and payload -/

/-- The state of `handleLearningPlanQuery`'s `onChunk` closure
(page.tsx, lines 42-98): the accumulated response, the
`finalPlanDetected` flag, the frozen `textBeforeFinalPlan`, the assistant
message with id `messageId` (absent until `addMessage` runs), and the
`isFirstChunk` flag. -/
structure PlanState where
  fullResponse : List Char
  detected : Bool
  textBefore : List Char
  message : Option (List Char)
  isFirst : Bool
deriving DecidableEq

def initPlan : PlanState := ⟨[], false, [], none, true⟩

/-- One delivered chunk: `streamLearningPlanQuery` skips empty chunks;
for the rest, `handleLearningPlanQuery` accumulates, detects the
sentinel on the accumulated buffer (freezing the trimmed pre-sentinel
text into the message if one exists), and otherwise forwards the chunk
verbatim to the message (creating it on the first chunk). -/
def planStep (s : PlanState) (chunk : List Char) : PlanState :=
  if chunk = [] then s else
  let fr := s.fullResponse ++ chunk
  if !s.detected && hasTok sentinelTok fr then
    let tb := trimBoth (beforeFirst sentinelTok fr)
    ⟨fr, true, tb, s.message.map (fun _ => tb), s.isFirst⟩
  else if !s.detected then
    if s.isFirst then ⟨fr, false, s.textBefore, some chunk, false⟩
    else ⟨fr, false, s.textBefore, s.message.map (fun m => m ++ chunk), s.isFirst⟩
  else ⟨fr, s.detected, s.textBefore, s.message, s.isFirst⟩

def runPlan (chunks : List (List Char)) : PlanState :=
  chunks.foldl planStep initPlan

/-- The displayed assistant message as a function of the accumulated
buffer: absent before any nonempty chunk, the verbatim accumulation
before the sentinel, the frozen trimmed pre-sentinel prefix after. -/
def msgSpec (B : List Char) : Option (List Char) :=
  if hasTok sentinelTok B = true then
    some (trimBoth (beforeFirst sentinelTok B))
  else if B = [] then none else some B

/-- The partition starts well when the sentinel is not already contained
in the first nonempty chunk (otherwise no assistant message ever
exists to freeze). -/
def goodStart (chunks : List (List Char)) : Prop :=
  hasTok sentinelTok ((chunks.filter (fun c => !c.isEmpty)).headD []) = false

instance goodStartDec (chunks : List (List Char)) : Decidable (goodStart chunks) := by
  unfold goodStart; infer_instance

theorem sentinelTok_ne_nil : sentinelTok ≠ [] := by decide

theorem joinL_eq_nil {A : List (List Char)} (h : joinL A = []) :
    ∀ x ∈ A, x = [] := by
  induction A with
  | nil => intro x hx; cases hx
  | cons c cs ih =>
    have hc : c ++ joinL cs = [] := by simpa [joinL] using h
    rcases List.append_eq_nil.mp hc with ⟨h1, h2⟩
    intro x hx
    rcases List.mem_cons.mp hx with hx | hx
    · rw [hx]; exact h1
    · exact ih h2 x hx

theorem hasTok_ne_nil {tok B : List Char} (htok : tok ≠ [])
    (h : hasTok tok B = true) : B ≠ [] := by
  intro hB
  subst hB
  rw [hasTok_nil_of_ne htok] at h
  exact Bool.noConfusion h

/-- Under a good start, the whole `onChunk` state is characterised by the
accumulated buffer, for every prefix of the chunk sequence. -/
theorem runPlan_inv (chunks : List (List Char)) (hg : goodStart chunks) :
    ∀ j, j ≤ chunks.length →
    (runPlan (List.take j chunks)).fullResponse = joinL (List.take j chunks) ∧
    ((runPlan (List.take j chunks)).isFirst = true ↔
      joinL (List.take j chunks) = []) ∧
    (runPlan (List.take j chunks)).message =
      msgSpec (joinL (List.take j chunks)) ∧
    (runPlan (List.take j chunks)).detected =
      hasTok sentinelTok (joinL (List.take j chunks)) ∧
    ((runPlan (List.take j chunks)).detected = true →
      (runPlan (List.take j chunks)).textBefore =
        trimBoth (beforeFirst sentinelTok (joinL (List.take j chunks)))) := by
  intro j
  induction j with
  | zero =>
    intro _
    exact ⟨rfl, ⟨fun _ => rfl, fun _ => rfl⟩, rfl, rfl, fun h => Bool.noConfusion h⟩
  | succ n ihj =>
    intro hj
    have hn : n ≤ chunks.length := Nat.le_of_succ_le hj
    rcases ihj hn with ⟨ifr, ifirst, imsg, idet, itb⟩
    have hlt : n < chunks.length := hj
    have hget : chunks[n]? = some (chunks.get ⟨n, hlt⟩) := by
      rw [List.getElem?_eq_getElem hlt]; rfl
    have htake : List.take (n + 1) chunks =
        List.take n chunks ++ [chunks.get ⟨n, hlt⟩] := by
      rw [List.take_succ, hget]; rfl
    have hjoin : joinL (List.take (n + 1) chunks) =
        joinL (List.take n chunks) ++ chunks.get ⟨n, hlt⟩ := by
      rw [htake, joinL_append, joinL_single]
    have hrun : runPlan (List.take (n + 1) chunks) =
        planStep (runPlan (List.take n chunks)) (chunks.get ⟨n, hlt⟩) := by
      rw [htake]
      unfold runPlan
      rw [List.foldl_append]
      rfl
    set c := chunks.get ⟨n, hlt⟩ with hcdef
    set B := joinL (List.take n chunks) with hBdef
    set sB := runPlan (List.take n chunks) with hsdef
    rw [hrun, hjoin]
    by_cases hc : c = []
    · rw [hc, List.append_nil]
      have hstep : planStep sB [] = sB := by rw [planStep, if_pos rfl]
      rw [hstep]
      exact ⟨ifr, ifirst, imsg, idet, itb⟩
    · by_cases hdet : sB.detected = true
      · -- already past the sentinel: only the buffer grows
        have hhB : hasTok sentinelTok B = true := by rw [← idet]; exact hdet
        have hhB' : hasTok sentinelTok (B ++ c) = true := hasTok_append c hhB
        have hBne : B ≠ [] := hasTok_ne_nil sentinelTok_ne_nil hhB
        have hB'ne : B ++ c ≠ [] := hasTok_ne_nil sentinelTok_ne_nil hhB'
        have hbf := beforeFirst_append c hhB
        have hstep : planStep sB c =
            ⟨B ++ c, true, sB.textBefore, sB.message, sB.isFirst⟩ := by
          rw [planStep, if_neg hc, ifr, hdet]
          rfl
        rw [hstep]
        refine ⟨rfl, ?_, ?_, hhB'.symm, ?_⟩
        · show sB.isFirst = true ↔ B ++ c = []
          rw [ifirst]
          exact ⟨fun h => absurd h hBne, fun h => absurd h hB'ne⟩
        · show sB.message = msgSpec (B ++ c)
          rw [imsg]
          unfold msgSpec
          rw [if_pos hhB, if_pos hhB', hbf]
        · intro _
          show sB.textBefore = trimBoth (beforeFirst sentinelTok (B ++ c))
          rw [itb hdet, hbf]
      · have hdetf : sB.detected = false := by
          rw [Bool.eq_false_iff]; exact hdet
        have hhB : hasTok sentinelTok B = false := by rw [← idet]; exact hdetf
        by_cases hs : hasTok sentinelTok (B ++ c) = true
        · -- the sentinel completes within this chunk
          have hBne : B ≠ [] := by
            intro hBnil
            -- all previous chunks were empty, so c is the first nonempty
            -- chunk, and goodStart says the sentinel is not inside it
            have hall : ∀ x ∈ List.take n chunks, x = [] :=
              joinL_eq_nil (hBdef ▸ hBnil)
            have hfilter :
                (List.take n chunks).filter (fun c => !c.isEmpty) = [] := by
              rw [List.filter_eq_nil]
              intro a ha
              rw [hall a ha]
              simp
            have hdropn : List.drop n chunks = c :: List.drop (n + 1) chunks := by
              rw [List.drop_eq_getElem_cons hlt]; rfl
            have hsplit : chunks.filter (fun c => !c.isEmpty) =
                c :: (List.drop (n + 1) chunks).filter (fun c => !c.isEmpty) := by
              conv_lhs => rw [← List.take_append_drop n chunks]
              rw [List.filter_append, hfilter, List.nil_append, hdropn,
                List.filter_cons, if_pos (by simpa using hc)]
            unfold goodStart at hg
            rw [hsplit] at hg
            simp only [List.headD_cons] at hg
            rw [hBnil, List.nil_append] at hs
            rw [hs] at hg
            exact Bool.noConfusion hg
          have hfirstf : sB.isFirst = false := by
            cases hx : sB.isFirst
            · rfl
            · exact absurd (ifirst.mp hx) hBne
          have hmsgB : sB.message = some B := by
            rw [imsg]
            unfold msgSpec
            rw [if_neg (by simp [hhB]), if_neg hBne]
          have hB'ne : B ++ c ≠ [] := hasTok_ne_nil sentinelTok_ne_nil hs
          have hstep : planStep sB c =
              ⟨B ++ c, true, trimBoth (beforeFirst sentinelTok (B ++ c)),
               some (trimBoth (beforeFirst sentinelTok (B ++ c))), false⟩ := by
            rw [planStep, if_neg hc, ifr, hdetf, hmsgB, hfirstf]
            simp only [Bool.not_false, Bool.true_and, hs, if_true,
              Option.map_some']
          rw [hstep]
          refine ⟨rfl, ?_, ?_, hs.symm, fun _ => rfl⟩
          · exact ⟨fun h => Bool.noConfusion h, fun h => absurd h hB'ne⟩
          · show some (trimBoth (beforeFirst sentinelTok (B ++ c))) =
              msgSpec (B ++ c)
            unfold msgSpec
            rw [if_pos hs]
        · -- still before the sentinel: forward verbatim
          have hsf : hasTok sentinelTok (B ++ c) = false := by
            rw [Bool.eq_false_iff]; exact hs
          have hB'ne : B ++ c ≠ [] := by
            intro hcon
            exact hc (List.append_eq_nil.mp hcon).2
          by_cases hfirst : sB.isFirst = true
          · have hBnil : B = [] := ifirst.mp hfirst
            have hstep : planStep sB c = ⟨B ++ c, false, sB.textBefore,
                some c, false⟩ := by
              rw [planStep, if_neg hc, ifr, hdetf, hfirst]
              simp only [Bool.not_false, Bool.true_and, hsf,
                Bool.false_eq_true, if_false, if_true]
            rw [hstep]
            refine ⟨rfl, ?_, ?_, hsf.symm, fun h => Bool.noConfusion h⟩
            · exact ⟨fun h => Bool.noConfusion h, fun h => absurd h hB'ne⟩
            · show some c = msgSpec (B ++ c)
              unfold msgSpec
              rw [if_neg (by simp [hsf]), if_neg hB'ne, hBnil, List.nil_append]
          · have hfirstf : sB.isFirst = false := by
              rw [Bool.eq_false_iff]; exact hfirst
            have hBne : B ≠ [] := by
              intro hBnil
              exact hfirst (ifirst.mpr hBnil)
            have hmsgB : sB.message = some B := by
              rw [imsg]
              unfold msgSpec
              rw [if_neg (by simp [hhB]), if_neg hBne]
            have hstep : planStep sB c = ⟨B ++ c, false, sB.textBefore,
                some (B ++ c), false⟩ := by
              rw [planStep, if_neg hc, ifr, hdetf, hfirstf, hmsgB]
              simp only [Bool.not_false, Bool.true_and, hsf,
                Bool.false_eq_true, if_false, Option.map_some']
              rw [if_pos trivial]
            rw [hstep]
            refine ⟨rfl, ?_, ?_, hsf.symm, fun h => Bool.noConfusion h⟩
            · exact ⟨fun h => Bool.noConfusion h, fun h => absurd h hB'ne⟩
            · show some (B ++ c) = msgSpec (B ++ c)
              unfold msgSpec
              rw [if_neg (by simp [hsf]), if_neg hB'ne]

/-! ### Claim C3 -/

/-- C3, counterexample: when the sentinel is already contained in the
first chunk, no assistant message has been created (`addMessage` never
ran), and the detection branch's update maps over an absent message — so
nothing is frozen and the displayed message is absent, not the
pre-sentinel text `"Hi"`. -/
theorem c3_counterexample :
    (runPlan ["Hi FINAL_PLAN x".data]).message = none ∧
    hasTok sentinelTok "Hi FINAL_PLAN x".data = true ∧
    trimBoth (beforeFirst sentinelTok "Hi FINAL_PLAN x".data) = "Hi".data := by
  decide

/-- C3 (amended): provided the sentinel is not contained in the first
nonempty chunk, after every prefix of the chunk sequence the displayed
assistant message is: absent while no nonempty chunk has arrived, the
verbatim concatenation of the chunks while the sentinel has not appeared
in the accumulated buffer, and — from the first chunk in which the
sentinel appears onward — frozen to the trimmed pre-sentinel text, with
no later chunk ever appended.  When the sentinel arrives within the
first nonempty chunk, no assistant message exists at all. -/
theorem c3_plan_boundary_amended (chunks : List (List Char))
    (hg : goodStart chunks) (j : Nat) (hj : j ≤ chunks.length) :
    (runPlan (List.take j chunks)).message =
      msgSpec (joinL (List.take j chunks)) :=
  (runPlan_inv chunks hg j hj).2.2.1

/-- Witness for C3 (amended) at a two-chunk stream whose second chunk
completes the sentinel. -/
theorem c3_witness :
    goodStart ["Great plan:".data, " FINAL_PLAN payload".data] ∧
    (runPlan (List.take 2 ["Great plan:".data, " FINAL_PLAN payload".data])).message =
      msgSpec (joinL (List.take 2 ["Great plan:".data, " FINAL_PLAN payload".data])) :=
  ⟨by decide,
   c3_plan_boundary_amended ["Great plan:".data, " FINAL_PLAN payload".data]
     (by decide) 2 (by decide)⟩

/-! ### Claim C6: payload extraction and decode failure -/

def lbrace : Char := Char.ofNat 123

def rbrace : Char := Char.ofNat 125

/-- The text after the first occurrence of `tok` (everything when `tok`
is absent is irrelevant to the uses below: they are guarded by
`hasTok`). -/
def afterFirst (tok : List Char) : List Char → List Char
  | [] => []
  | c :: t =>
    if pre tok (c :: t) then List.drop tok.length (c :: t)
    else afterFirst tok t

/-- JavaScript `lastIndexOf` for the closing brace. -/
def lastBraceIdx (l : List Char) : Option Nat :=
  (l.reverse.findIdx? (fun c => c == rbrace)).map (fun k => l.length - 1 - k)

/-- The payload substring `streamLearningPlanQuery` hands to
`JSON.parse` (learningPlanApi.ts, lines 188-219): split the full
response on every `FINAL_PLAN`, take `parts[1]` (the text between the
first and second occurrence, or all of the rest when the sentinel occurs
once), trim it, and cut from the first `{` to the last `}` with
JavaScript `substring` semantics (swapping when the bounds are
reversed); `none` when a bound is missing (or the sentinel absent), in
which case no parse is attempted. -/
def codeExtract (full : List Char) : Option (List Char) :=
  if hasTok sentinelTok full = true then
    let jsonPart := trimBoth (beforeFirst sentinelTok (afterFirst sentinelTok full))
    match jsonPart.findIdx? (fun c => c == lbrace), lastBraceIdx jsonPart with
    | some s, some e =>
      let a := min s (e + 1)
      let b := max s (e + 1)
      some ((jsonPart.drop a).take (b - a))
    | _, _ => none
  else none

/-- The payload substring as the specification words it: in the text
after the first sentinel occurrence, locate the first `{` and the last
`}` and take that substring.  Kept only to compare against
`codeExtract`. -/
def specExtract (full : List Char) : Option (List Char) :=
  if hasTok sentinelTok full = true then
    let post := afterFirst sentinelTok full
    match post.findIdx? (fun c => c == lbrace), lastBraceIdx post with
    | some s, some e =>
      if s ≤ e then some ((post.drop s).take (e + 1 - s)) else none
    | _, _ => none
  else none

/-- The parsed plan: decode of the extracted substring by an abstract
JSON decoder (`JSON.parse` plus plan construction); a decoder throw is a
`none` (the code catches it and leaves `parsedPlan` undefined). -/
def parsePlanWith {α : Type} (jp : List Char → Option α) (full : List Char) :
    Option α :=
  (codeExtract full).bind jp

/-- The page's `onComplete` (page.tsx, lines 112-158) applied to the
final stream state: when the response contains the sentinel, the message
text becomes the frozen `textBeforeFinalPlan` (or, when that is empty,
the recomputed trimmed pre-sentinel text) and the parsed plan is
attached; otherwise the streamed message stays as it is with no plan.
The update maps over the existing message and creates none. -/
def pageComplete {α : Type} (s : PlanState) (plan : Option α) :
    Option (List Char × Option α) :=
  if hasTok sentinelTok s.fullResponse = true then
    s.message.map (fun _ =>
      ((if s.textBefore = [] then
          trimBoth (beforeFirst sentinelTok s.fullResponse)
        else s.textBefore), plan))
  else s.message.map (fun m => (m, none))

/-- The whole learning-plan pipeline at stream end: the decoded plan
reported to `onComplete`, and the final displayed message with its
attached plan. -/
def runLearningPlan {α : Type} (jp : List Char → Option α)
    (chunks : List (List Char)) : Option α × Option (List Char × Option α) :=
  (parsePlanWith jp (joinL chunks),
   pageComplete (runPlan chunks) (parsePlanWith jp (joinL chunks)))

/-- C6, counterexample: with two sentinel occurrences the code does not
decode the first-`{`-to-last-`}` span of the post-sentinel text: `split`
cuts at every occurrence and `parts[1]` is only the text between the
first two, so the decoded substring differs from the one the claim
describes. -/
def c6cexFull : List Char :=
  "A FINAL_PLAN ".data ++ lbrace :: 'x' :: rbrace :: " FINAL_PLAN y".data
    ++ [rbrace]

theorem c6_counterexample :
    codeExtract c6cexFull = some (lbrace :: 'x' :: [rbrace]) ∧
    specExtract c6cexFull =
      some (lbrace :: 'x' :: rbrace :: " FINAL_PLAN y".data ++ [rbrace]) ∧
    codeExtract c6cexFull ≠ specExtract c6cexFull := by decide

/-- C6 (amended): the payload is the trimmed text between the first two
sentinel occurrences (all of the remainder when the sentinel occurs
once), cut from its first `{` to its last `}`; when its decode fails the
failure is contained — `streamLearningPlanQuery` reports no plan rather
than throwing — and the frozen conversational message stays displayed
with no plan attached. -/
theorem c6_payload_failure_amended {α : Type} (jp : List Char → Option α)
    (chunks : List (List Char))
    (h1 : hasTok sentinelTok (joinL chunks) = true)
    (hg : goodStart chunks)
    (h2 : parsePlanWith jp (joinL chunks) = none) :
    (runLearningPlan jp chunks).1 = none ∧
    (runLearningPlan jp chunks).2 =
      some (trimBoth (beforeFirst sentinelTok (joinL chunks)), none) := by
  have hinv := runPlan_inv chunks hg chunks.length (le_refl _)
  rw [List.take_length] at hinv
  rcases hinv with ⟨ifr, _, imsg, idet, itb⟩
  constructor
  · exact h2
  · show pageComplete (runPlan chunks) (parsePlanWith jp (joinL chunks)) =
      some (trimBoth (beforeFirst sentinelTok (joinL chunks)), none)
    rw [h2]
    unfold pageComplete
    rw [ifr, if_pos h1, imsg]
    unfold msgSpec
    rw [if_pos h1]
    simp only [Option.map_some']
    have hdet' : (runPlan chunks).detected = true := by rw [idet]; exact h1
    have htb := itb hdet'
    by_cases htbe : (runPlan chunks).textBefore = []
    · rw [if_pos htbe]
    · rw [if_neg htbe, htb]

/-- Witness for C6 (amended) with a decoder that always fails. -/
theorem c6_witness :
    (runLearningPlan (fun _ => (none : Option Unit))
      ["Hi ".data, "FINAL_PLAN junk".data]).1 = none ∧
    (runLearningPlan (fun _ => (none : Option Unit))
      ["Hi ".data, "FINAL_PLAN junk".data]).2 =
      some (trimBoth (beforeFirst sentinelTok
        (joinL ["Hi ".data, "FINAL_PLAN junk".data])), none) :=
  c6_payload_failure_amended (fun _ => (none : Option Unit))
    ["Hi ".data, "FINAL_PLAN junk".data] (by decide) (by decide) (by decide)

/-! ### Claim C7: ConceptProgress (modelled from the spec) -/

/-- Modelled from the spec: the server's `ConceptProgress` record (spec
§3; SERVER_IMPLEMENTATION_SUMMARY.md).  The server sources are not part
of the repository snapshot, only their description. -/
structure ConceptProgress where
  currentDepth : Nat
  targetDepth : Nat
  topicsCompleted : Nat
  lastTopicName : Option (List Char)
  completed : Bool
deriving DecidableEq

/-- Modelled from the spec: the server's `is_complete` check —
`depth >= target AND topics >= 3` (SERVER_IMPLEMENTATION_SUMMARY.md,
"Properties"). -/
def isComplete (p : ConceptProgress) : Bool :=
  decide (p.targetDepth ≤ p.currentDepth) && decide (3 ≤ p.topicsCompleted)

/-- Modelled from the spec: `applyCompletion` (spec §4.3) — add the
increment, count the topic, record the topic name, recompute
`completed`. -/
def applyCompletion (p : ConceptProgress) (inc : Nat) (topic : List Char) :
    ConceptProgress :=
  let q : ConceptProgress :=
    { p with currentDepth := p.currentDepth + inc,
             topicsCompleted := p.topicsCompleted + 1,
             lastTopicName := some topic }
  { q with completed := isComplete q }

/-- Modelled from the spec: lazy creation of a progress record at depth
0 with no topics completed. -/
def initProgress (target : Nat) : ConceptProgress := ⟨0, target, 0, none, false⟩

def runProgress (target : Nat) (ops : List (Nat × List Char)) : ConceptProgress :=
  ops.foldl (fun p o => applyCompletion p o.1 o.2) (initProgress target)

/-- The completion invariant and the monotonicity facts, propagated
through any sequence of `applyCompletion` steps from any state already
satisfying the invariant. -/
theorem progress_fold_inv (ops : List (Nat × List Char)) :
    ∀ p0 : ConceptProgress,
    (p0.completed = true ↔
      p0.targetDepth ≤ p0.currentDepth ∧ 3 ≤ p0.topicsCompleted) →
    ((ops.foldl (fun p o => applyCompletion p o.1 o.2) p0).completed = true ↔
      (ops.foldl (fun p o => applyCompletion p o.1 o.2) p0).targetDepth ≤
        (ops.foldl (fun p o => applyCompletion p o.1 o.2) p0).currentDepth ∧
      3 ≤ (ops.foldl (fun p o => applyCompletion p o.1 o.2) p0).topicsCompleted) ∧
    (ops.foldl (fun p o => applyCompletion p o.1 o.2) p0).targetDepth =
      p0.targetDepth ∧
    p0.currentDepth ≤
      (ops.foldl (fun p o => applyCompletion p o.1 o.2) p0).currentDepth ∧
    p0.topicsCompleted ≤
      (ops.foldl (fun p o => applyCompletion p o.1 o.2) p0).topicsCompleted ∧
    (p0.completed = true →
      (ops.foldl (fun p o => applyCompletion p o.1 o.2) p0).completed = true) := by
  induction ops with
  | nil =>
    intro p0 hinv
    exact ⟨hinv, rfl, le_refl _, le_refl _, fun h => h⟩
  | cons o ops ih =>
    intro p0 hinv
    have hinv1 : (applyCompletion p0 o.1 o.2).completed = true ↔
        (applyCompletion p0 o.1 o.2).targetDepth ≤
          (applyCompletion p0 o.1 o.2).currentDepth ∧
        3 ≤ (applyCompletion p0 o.1 o.2).topicsCompleted := by
      simp [applyCompletion, isComplete]
    rcases ih (applyCompletion p0 o.1 o.2) hinv1 with ⟨a, b, c, d, e⟩
    rw [List.foldl_cons]
    refine ⟨a, ?_, ?_, ?_, ?_⟩
    · rw [b]; rfl
    · exact le_trans (by simp [applyCompletion]) c
    · exact le_trans (by simp [applyCompletion]) d
    · intro hc
      apply e
      have hth := hinv.mp hc
      apply hinv1.mpr
      constructor
      · show p0.targetDepth ≤ p0.currentDepth + o.1
        exact le_trans hth.1 (Nat.le_add_right _ _)
      · show 3 ≤ p0.topicsCompleted + 1
        exact le_trans hth.2 (Nat.le_add_right _ _)

/-- C7: for every reachable `ConceptProgress` record (any sequence of
`applyCompletion` steps with positive increments from a fresh record),
`completed` holds exactly when `currentDepth >= targetDepth` and
`topicsCompleted >= 3` (the target never changes from the given one);
along any such sequence `currentDepth` and `topicsCompleted` are
non-decreasing and once `completed` is true it stays true. -/
theorem c7_completion_invariant (target : Nat) (ops : List (Nat × List Char))
    (hpos : ∀ o ∈ ops, 1 ≤ o.1) (j k : Nat) (hjk : j ≤ k)
    (hk : k ≤ ops.length) :
    ((runProgress target (List.take k ops)).completed = true ↔
      target ≤ (runProgress target (List.take k ops)).currentDepth ∧
      3 ≤ (runProgress target (List.take k ops)).topicsCompleted) ∧
    (runProgress target (List.take j ops)).currentDepth ≤
      (runProgress target (List.take k ops)).currentDepth ∧
    (runProgress target (List.take j ops)).topicsCompleted ≤
      (runProgress target (List.take k ops)).topicsCompleted ∧
    ((runProgress target (List.take j ops)).completed = true →
      (runProgress target (List.take k ops)).completed = true) := by
  have hinv0 : (initProgress target).completed = true ↔
      (initProgress target).targetDepth ≤ (initProgress target).currentDepth ∧
      3 ≤ (initProgress target).topicsCompleted := by
    simp [initProgress]
  have hsplit : List.take k ops =
      List.take j ops ++ List.drop j (List.take k ops) := by
    conv_lhs => rw [← List.take_append_drop j (List.take k ops)]
    rw [List.take_take, Nat.min_eq_left hjk]
  have hj0 := progress_fold_inv (List.take j ops) (initProgress target) hinv0
  have hkrun : runProgress target (List.take k ops) =
      (List.drop j (List.take k ops)).foldl (fun p o => applyCompletion p o.1 o.2)
        (runProgress target (List.take j ops)) := by
    unfold runProgress
    conv_lhs => rw [hsplit]
    rw [List.foldl_append]
  have hrest := progress_fold_inv (List.drop j (List.take k ops))
    (runProgress target (List.take j ops)) hj0.1
  rcases hrest with ⟨a, b, c, d, e⟩
  rw [hkrun]
  have htgt : (runProgress target (List.take j ops)).targetDepth = target :=
    hj0.2.1
  have ht : ((List.drop j (List.take k ops)).foldl
      (fun p o => applyCompletion p o.1 o.2)
      (runProgress target (List.take j ops))).targetDepth = target := by
    rw [b, htgt]
  refine ⟨?_, c, d, e⟩
  rw [ht] at a
  exact a

/-- Witness for C7 at the spec's scenario-B increments `[2,2,2,1]`
against target depth 7: after the 4th completion the concept is
complete. -/
theorem c7_witness :
    (∀ o ∈ [((2 : Nat), "a".data), (2, "b".data), (2, "c".data),
            (1, "d".data)], 1 ≤ o.1) ∧
    ((runProgress 7 (List.take 4 [((2 : Nat), "a".data), (2, "b".data),
        (2, "c".data), (1, "d".data)])).completed = true ↔
      7 ≤ (runProgress 7 (List.take 4 [((2 : Nat), "a".data), (2, "b".data),
        (2, "c".data), (1, "d".data)])).currentDepth ∧
      3 ≤ (runProgress 7 (List.take 4 [((2 : Nat), "a".data), (2, "b".data),
        (2, "c".data), (1, "d".data)])).topicsCompleted) :=
  ⟨by decide,
   (c7_completion_invariant 7 [((2 : Nat), "a".data), (2, "b".data),
     (2, "c".data), (1, "d".data)] (by decide) 0 4 (by decide) (by decide)).1⟩

/-! ### The content-generation store (contentGenerationStore.tsx) -/

/-- An entry of `topicHistoryFull` (`TopicHistoryItem`), restricted to
the fields the store operations read. -/
structure HistoryItem where
  topicName : List Char
  fullContent : Option (List Char)
  depthIncrement : Nat
deriving DecidableEq

/-- The parts of a successful `markTopicComplete` response the store
uses: the updated concept progress and whether `nextAction` is
`concept_complete`. -/
structure CompletionResp where
  conceptProgress : ConceptProgress
  conceptComplete : Bool
deriving DecidableEq

/-- The store state (`useContentGenerationStore`), restricted to the
fields the modelled operations read or write. -/
structure Store where
  currentContent : List Char
  currentTopicName : Option (List Char)
  currentSubjectName : Option (List Char)
  currentCourseId : Option (List Char)
  currentConceptName : Option (List Char)
  currentTopicDepth : Nat
  isStreaming : Bool
  isLoading : Bool
  error : Option (List Char)
  topicHistoryFull : List HistoryItem
  currentHistoryIndex : Int
  isNavigating : Bool
  conceptProgress : Option ConceptProgress
  showCelebration : Bool
deriving DecidableEq

def initStore : Store :=
  ⟨[], none, none, none, none, 1, false, false, none, [], -1, false, none, false⟩

/-- The synchronous state reset of `startContentGeneration` (lines
105-115).  The streaming callbacks that follow only touch
`currentContent`/`currentTopicName`/`currentTopicDepth`/flags, never the
history list or the cursor. -/
def startGen (s : Store) (courseId subjectName : List Char)
    (conceptName : Option (List Char)) : Store :=
  { s with currentContent := [],
           currentTopicName := if strFalsy conceptName then none else conceptName,
           currentSubjectName := some subjectName,
           currentCourseId := some courseId,
           currentHistoryIndex := -1,
           isNavigating := false,
           isStreaming := true,
           isLoading := true,
           error := none }

/-- `completeCurrentTopic` (lines 173-264): the required-data guard, then
either the success update (append the item, point the cursor at it, mark
navigating) or the failure update. -/
def completeTopic (s : Store) (result : Option CompletionResp) : Store :=
  if strFalsy s.currentCourseId || strFalsy s.currentSubjectName ||
      strFalsy s.currentConceptName || strFalsy s.currentTopicName then
    { s with error := some "Cannot complete topic: missing required data".data }
  else
    match result with
    | some r =>
      { s with topicHistoryFull := s.topicHistoryFull ++
                 [⟨s.currentTopicName.getD [], some s.currentContent,
                   s.currentTopicDepth⟩],
               currentHistoryIndex := Int.ofNat s.topicHistoryFull.length,
               isNavigating := true,
               conceptProgress := some r.conceptProgress,
               showCelebration := r.conceptComplete,
               isLoading := false,
               error := none }
    | none => { s with isLoading := false,
                       error := some "Failed to mark topic as complete".data }

/-- `loadTopicHistory` (lines 310-341): on success with a non-empty list
show its last topic; on success with an empty list replace only the
list; on failure record the error. -/
def loadHistory (s : Store) (result : Option (List HistoryItem)) : Store :=
  match result with
  | some topics =>
    match topics.getLast? with
    | some lastTopic =>
      { s with topicHistoryFull := topics,
               currentHistoryIndex := Int.ofNat (topics.length - 1),
               currentContent := lastTopic.fullContent.getD [],
               currentTopicName := some lastTopic.topicName,
               isNavigating := true }
    | none => { s with topicHistoryFull := topics }
  | none => { s with error := some "Failed to load topic history".data }

/-- `navigateToPrevious` (lines 344-374). -/
def navPrev (s : Store) : Store :=
  let s0 := if s.showCelebration then { s with showCelebration := false } else s
  if s.currentHistoryIndex = -1 ∧ 0 < s.topicHistoryFull.length then
    match s.topicHistoryFull.getLast? with
    | some lastTopic =>
      { s0 with currentHistoryIndex := Int.ofNat (s.topicHistoryFull.length - 1),
                currentContent := lastTopic.fullContent.getD [],
                currentTopicName := some lastTopic.topicName,
                isNavigating := true }
    | none => s0
  else if 0 < s.currentHistoryIndex then
    match s.topicHistoryFull.get? (s.currentHistoryIndex - 1).toNat with
    | some prevTopic =>
      { s0 with currentHistoryIndex := s.currentHistoryIndex - 1,
                currentContent := prevTopic.fullContent.getD [],
                currentTopicName := some prevTopic.topicName }
    | none => s0
  else s0

/-- `navigateToNext` (lines 377-410); the boolean reports whether a new
generation stream was started. -/
def navNext (s : Store) (hasUserId : Bool) : Store × Bool :=
  if 0 ≤ s.currentHistoryIndex ∧
      s.currentHistoryIndex < (s.topicHistoryFull.length : Int) - 1 then
    match s.topicHistoryFull.get? (s.currentHistoryIndex + 1).toNat with
    | some nextTopic =>
      ({ s with currentHistoryIndex := s.currentHistoryIndex + 1,
                currentContent := nextTopic.fullContent.getD [],
                currentTopicName := some nextTopic.topicName }, false)
    | none => (s, false)
  else if s.currentHistoryIndex = (s.topicHistoryFull.length : Int) - 1 ∨
      s.currentHistoryIndex = -1 then
    match s.conceptProgress with
    | some p =>
      if p.completed = false then
        if hasUserId = true ∧ strFalsy s.currentCourseId = false ∧
            strFalsy s.currentSubjectName = false ∧
            strFalsy s.currentConceptName = false then
          (startGen { s with currentHistoryIndex := -1, isNavigating := false }
            (s.currentCourseId.getD []) (s.currentSubjectName.getD [])
            s.currentConceptName, true)
        else (s, false)
      else (s, false)
    | none => (s, false)
  else (s, false)

/-- `clearCurrentContent` (lines 267-277). -/
def clearContent (s : Store) : Store :=
  { s with currentContent := [],
           currentTopicName := none,
           currentSubjectName := none,
           currentCourseId := none,
           isStreaming := false,
           isLoading := false,
           error := none }

/-- The store operations, with their external inputs (server responses,
presence of a user id). -/
inductive StoreEv where
  | startGenEv (courseId subjectName : List Char) (conceptName : Option (List Char))
  | completeTopicEv (result : Option CompletionResp)
  | loadHistoryEv (result : Option (List HistoryItem))
  | navPrevEv
  | navNextEv (hasUserId : Bool)
  | clearContentEv
deriving DecidableEq

def storeStep (s : Store) : StoreEv → Store
  | .startGenEv c sub con => startGen s c sub con
  | .completeTopicEv r => completeTopic s r
  | .loadHistoryEv r => loadHistory s r
  | .navPrevEv => navPrev s
  | .navNextEv u => (navNext s u).1
  | .clearContentEv => clearContent s

def runStore (evs : List StoreEv) : Store := evs.foldl storeStep initStore

/-! ### Claim C8 -/

/-- C8: `navigateToPrevious` at the live-generation sentinel with an
empty completion list changes none of the cursor fields (only the
celebration overlay may be dismissed); `navigateToNext` at the last list
index or at the live-generation position, when the concept's progress is
marked completed, returns the state unchanged and triggers no
generation. -/
theorem c8_navigation_boundary_noops :
    (∀ s : Store, s.currentHistoryIndex = -1 → s.topicHistoryFull = [] →
      (navPrev s).currentHistoryIndex = s.currentHistoryIndex ∧
      (navPrev s).topicHistoryFull = s.topicHistoryFull ∧
      (navPrev s).currentContent = s.currentContent ∧
      (navPrev s).currentTopicName = s.currentTopicName ∧
      (navPrev s).isNavigating = s.isNavigating) ∧
    (∀ (s : Store) (u : Bool) (p : ConceptProgress),
      s.conceptProgress = some p → p.completed = true →
      (s.currentHistoryIndex = (s.topicHistoryFull.length : Int) - 1 ∨
        s.currentHistoryIndex = -1) →
      navNext s u = (s, false)) := by
  constructor
  · intro s h1 h2
    unfold navPrev
    rw [if_neg (by rw [h2]; simp), if_neg (by rw [h1]; decide)]
    by_cases hsc : s.showCelebration = true <;> simp [hsc]
  · intro s u p hcp hcompl hidx
    unfold navNext
    have hnot1 : ¬ (0 ≤ s.currentHistoryIndex ∧
        s.currentHistoryIndex < (s.topicHistoryFull.length : Int) - 1) := by
      rintro ⟨hge, hlt⟩
      rcases hidx with h | h
      · rw [h] at hlt; exact absurd hlt (lt_irrefl _)
      · rw [h] at hge; exact absurd hge (by decide)
    rw [if_neg hnot1, if_pos hidx, hcp]
    simp only [hcompl]
    rfl

/-- Witness for C8 at concrete states. -/
theorem c8_witness :
    ((navPrev initStore).currentHistoryIndex = initStore.currentHistoryIndex ∧
      (navPrev initStore).topicHistoryFull = initStore.topicHistoryFull ∧
      (navPrev initStore).currentContent = initStore.currentContent ∧
      (navPrev initStore).currentTopicName = initStore.currentTopicName ∧
      (navPrev initStore).isNavigating = initStore.isNavigating) ∧
    navNext { initStore with conceptProgress := some ⟨7, 7, 3, none, true⟩ }
        true =
      ({ initStore with conceptProgress := some ⟨7, 7, 3, none, true⟩ }, false) :=
  ⟨c8_navigation_boundary_noops.1 initStore (by decide) (by decide),
   c8_navigation_boundary_noops.2
     { initStore with conceptProgress := some ⟨7, 7, 3, none, true⟩ }
     true ⟨7, 7, 3, none, true⟩ (by decide) (by decide) (Or.inr (by decide))⟩

/-! ### Claim C9 -/

/-- The disabled-condition of the mark-complete button in
`ContentDisplay`: `isLoading || !currentTopicName || isNavigating`. -/
def markCompleteDisabled (s : Store) : Bool :=
  s.isLoading || strFalsy s.currentTopicName || s.isNavigating

/-- Modelled from the spec: a row of the topic-completion ledger,
identified by the (user, course, subject, concept, topic) tuple.  The
server-side ledger is not part of the repository snapshot. -/
structure LedgerEntry where
  userId : List Char
  courseId : List Char
  subjectName : List Char
  conceptName : List Char
  topicName : List Char
  depthIncrement : Nat
deriving DecidableEq

def keyOf (e : LedgerEntry) :
    List Char × List Char × List Char × List Char × List Char :=
  (e.userId, e.courseId, e.subjectName, e.conceptName, e.topicName)

def hasRow (L : List LedgerEntry) (e : LedgerEntry) : Bool :=
  L.any (fun x => decide (keyOf x = keyOf e))

/-- Modelled from the spec: the commit-then-increment transactional unit
(spec §4.4/§5) — insert-if-absent on the identifying tuple; when the row
already exists the state is returned unchanged and `applyCompletion` is
NOT re-applied. -/
def commitAndApply (st : List LedgerEntry × ConceptProgress)
    (e : LedgerEntry) : List LedgerEntry × ConceptProgress :=
  if hasRow st.1 e then st
  else (st.1 ++ [e], applyCompletion st.2 e.depthIncrement e.topicName)

def countRows (L : List LedgerEntry) (e : LedgerEntry) : Nat :=
  (L.filter (fun x => decide (keyOf x = keyOf e))).length

/-- C9: after a successful `completeCurrentTopic` the client is in the
navigating state, in which the mark-complete button is disabled (so a
second click cannot happen); and committing the same identifying tuple
twice against the ledger yields exactly one row and exactly one
`applyCompletion` — the second commit is the identity. -/
theorem c9_duplicate_completion_noop :
    (∀ (s : Store) (r : CompletionResp),
      strFalsy s.currentCourseId = false →
      strFalsy s.currentSubjectName = false →
      strFalsy s.currentConceptName = false →
      strFalsy s.currentTopicName = false →
      (completeTopic s (some r)).isNavigating = true ∧
      markCompleteDisabled (completeTopic s (some r)) = true) ∧
    (∀ (L : List LedgerEntry) (p : ConceptProgress) (e : LedgerEntry),
      hasRow L e = false →
      countRows (commitAndApply (commitAndApply (L, p) e) e).1 e = 1 ∧
      (commitAndApply (commitAndApply (L, p) e) e).2 =
        applyCompletion p e.depthIncrement e.topicName ∧
      commitAndApply (commitAndApply (L, p) e) e = commitAndApply (L, p) e) := by
  constructor
  · intro s r h1 h2 h3 h4
    have hguard : (strFalsy s.currentCourseId || strFalsy s.currentSubjectName ||
        strFalsy s.currentConceptName || strFalsy s.currentTopicName) = false := by
      rw [h1, h2, h3, h4]; rfl
    have hstep : completeTopic s (some r) =
        { s with topicHistoryFull := s.topicHistoryFull ++
                   [⟨s.currentTopicName.getD [], some s.currentContent,
                     s.currentTopicDepth⟩],
                 currentHistoryIndex := Int.ofNat s.topicHistoryFull.length,
                 isNavigating := true,
                 conceptProgress := some r.conceptProgress,
                 showCelebration := r.conceptComplete,
                 isLoading := false,
                 error := none } := by
      unfold completeTopic
      rw [hguard]
      rfl
    rw [hstep]
    constructor
    · rfl
    · unfold markCompleteDisabled
      simp
  · intro L p e h
    have h1 : commitAndApply (L, p) e =
        (L ++ [e], applyCompletion p e.depthIncrement e.topicName) := by
      unfold commitAndApply
      rw [h]
      rfl
    have hself : decide (keyOf e = keyOf e) = true := by simp
    have h2 : hasRow (L ++ [e]) e = true := by
      unfold hasRow
      rw [List.any_append]
      simp
    have h3 : commitAndApply (L ++ [e],
        applyCompletion p e.depthIncrement e.topicName) e =
        (L ++ [e], applyCompletion p e.depthIncrement e.topicName) := by
      unfold commitAndApply
      rw [h2]
      rfl
    have hfilter : L.filter (fun x => decide (keyOf x = keyOf e)) = [] := by
      rw [List.filter_eq_nil]
      intro a ha
      unfold hasRow at h
      rw [List.any_eq_false] at h
      exact h a ha
    refine ⟨?_, ?_, ?_⟩
    · rw [h1, h3]
      unfold countRows
      rw [List.filter_append, hfilter]
      simp
    · rw [h1, h3]
    · rw [h1, h3]

/-- A store state ready to complete a topic, for the C9 witness. -/
def readyStore : Store :=
  { initStore with currentCourseId := some "c1".data,
                   currentSubjectName := some "limits".data,
                   currentConceptName := some "continuity".data,
                   currentTopicName := some "intro".data }

/-- A ledger row, for the C9 witness. -/
def wEntry : LedgerEntry :=
  ⟨"u".data, "c1".data, "limits".data, "continuity".data, "intro".data, 2⟩

/-- Witness for C9 at a concrete ready store and a fresh ledger. -/
theorem c9_witness :
    ((completeTopic readyStore (some ⟨⟨2, 7, 1, none, false⟩, false⟩)).isNavigating = true ∧
      markCompleteDisabled
        (completeTopic readyStore (some ⟨⟨2, 7, 1, none, false⟩, false⟩)) = true) ∧
    (countRows (commitAndApply (commitAndApply ([], initProgress 7) wEntry)
        wEntry).1 wEntry = 1 ∧
      (commitAndApply (commitAndApply ([], initProgress 7) wEntry) wEntry).2 =
        applyCompletion (initProgress 7) wEntry.depthIncrement wEntry.topicName ∧
      commitAndApply (commitAndApply ([], initProgress 7) wEntry) wEntry =
        commitAndApply ([], initProgress 7) wEntry) :=
  ⟨c9_duplicate_completion_noop.1 readyStore ⟨⟨2, 7, 1, none, false⟩, false⟩
     (by decide) (by decide) (by decide) (by decide),
   c9_duplicate_completion_noop.2 [] (initProgress 7) wEntry (by decide)⟩

/-! ### Claim C10 -/

/-- The claimed cursor invariant: the index is the live-generation
sentinel -1 or a valid position in the history list. -/
def cursorInv (s : Store) : Prop :=
  s.currentHistoryIndex = -1 ∨
  (0 ≤ s.currentHistoryIndex ∧
    s.currentHistoryIndex < (s.topicHistoryFull.length : Int))

instance cursorInvDec (s : Store) : Decidable (cursorInv s) := by
  unfold cursorInv; infer_instance

/-- A trace is load-safe when every successful `loadTopicHistory` that
returns an empty topic list arrives while the cursor is at the
live-generation position. -/
def safeLoads : Store → List StoreEv → Bool
  | _, [] => true
  | s, e :: rest =>
    (match e with
     | .loadHistoryEv (some []) => s.currentHistoryIndex == -1
     | _ => true) && safeLoads (storeStep s e) rest

theorem startGen_char (s : Store) (c sub : List Char)
    (con : Option (List Char)) :
    (startGen s c sub con).topicHistoryFull = s.topicHistoryFull ∧
    (startGen s c sub con).currentHistoryIndex = -1 :=
  ⟨rfl, rfl⟩

theorem clearContent_char (s : Store) :
    (clearContent s).topicHistoryFull = s.topicHistoryFull ∧
    (clearContent s).currentHistoryIndex = s.currentHistoryIndex :=
  ⟨rfl, rfl⟩

/-- Both branches of the celebration-dismissal update keep every other
field. -/
theorem celebClear_fields (s : Store) :
    ((if s.showCelebration = true then { s with showCelebration := false }
      else s) : Store).topicHistoryFull = s.topicHistoryFull ∧
    ((if s.showCelebration = true then { s with showCelebration := false }
      else s) : Store).currentHistoryIndex = s.currentHistoryIndex ∧
    ((if s.showCelebration = true then { s with showCelebration := false }
      else s) : Store).currentContent = s.currentContent ∧
    ((if s.showCelebration = true then { s with showCelebration := false }
      else s) : Store).currentTopicName = s.currentTopicName ∧
    ((if s.showCelebration = true then { s with showCelebration := false }
      else s) : Store).isNavigating = s.isNavigating := by
  by_cases h : s.showCelebration = true <;> simp [h]

/-- `completeCurrentTopic` either leaves the list and cursor alone (guard
failure or request failure) or appends one item and points the cursor at
it. -/
theorem completeTopic_char (s : Store) (r : Option CompletionResp) :
    ((completeTopic s r).topicHistoryFull = s.topicHistoryFull ∧
      (completeTopic s r).currentHistoryIndex = s.currentHistoryIndex) ∨
    ((completeTopic s r).topicHistoryFull.length =
        s.topicHistoryFull.length + 1 ∧
      (completeTopic s r).currentHistoryIndex =
        Int.ofNat s.topicHistoryFull.length) := by
  by_cases hg : (strFalsy s.currentCourseId || strFalsy s.currentSubjectName ||
      strFalsy s.currentConceptName || strFalsy s.currentTopicName) = true
  · refine Or.inl ⟨?_, ?_⟩ <;> simp only [completeTopic, if_pos hg]
  · cases r with
    | none =>
      refine Or.inl ⟨?_, ?_⟩ <;> simp only [completeTopic, if_neg hg]
    | some r =>
      refine Or.inr ⟨?_, ?_⟩ <;> simp only [completeTopic, if_neg hg]
      rw [List.length_append, List.length_singleton]

/-- `loadTopicHistory` either changes nothing relevant, or installs an
empty list leaving the cursor alone, or installs a non-empty list with
the cursor on its last element. -/
theorem loadHistory_char (s : Store) (r : Option (List HistoryItem)) :
    ((loadHistory s r).topicHistoryFull = s.topicHistoryFull ∧
      (loadHistory s r).currentHistoryIndex = s.currentHistoryIndex) ∨
    (∃ topics, r = some topics ∧
      ((topics = [] ∧ (loadHistory s r).topicHistoryFull = [] ∧
         (loadHistory s r).currentHistoryIndex = s.currentHistoryIndex) ∨
       (0 < topics.length ∧ (loadHistory s r).topicHistoryFull = topics ∧
         (loadHistory s r).currentHistoryIndex =
           Int.ofNat (topics.length - 1)))) := by
  cases r with
  | none => exact Or.inl ⟨rfl, rfl⟩
  | some topics =>
    rcases hgl : topics.getLast? with _ | lt
    · have htnil : topics = [] := by
        cases topics with
        | nil => rfl
        | cons a as =>
          rw [List.getLast?_eq_getLast _ (by simp)] at hgl
          exact Option.noConfusion hgl
      refine Or.inr ⟨topics, rfl, Or.inl ⟨htnil, ?_, ?_⟩⟩ <;>
        simp only [loadHistory, hgl]
      exact htnil
    · have htne : topics ≠ [] := by
        intro hcon
        rw [hcon] at hgl
        exact Option.noConfusion hgl
      refine Or.inr ⟨topics, rfl, Or.inr ⟨List.length_pos.mpr htne, ?_, ?_⟩⟩ <;>
        simp only [loadHistory, hgl]

/-- `navigateToPrevious` never changes the list; the cursor stays, jumps
to the last element of a non-empty list, or steps back from a positive
position. -/
theorem navPrev_char (s : Store) :
    (navPrev s).topicHistoryFull = s.topicHistoryFull ∧
    ((navPrev s).currentHistoryIndex = s.currentHistoryIndex ∨
     ((navPrev s).currentHistoryIndex =
        Int.ofNat (s.topicHistoryFull.length - 1) ∧
       0 < s.topicHistoryFull.length) ∨
     ((navPrev s).currentHistoryIndex = s.currentHistoryIndex - 1 ∧
       0 < s.currentHistoryIndex)) := by
  by_cases hc1 : s.currentHistoryIndex = -1 ∧ 0 < s.topicHistoryFull.length
  · rcases hgl : s.topicHistoryFull.getLast? with _ | lt
    · refine ⟨?_, Or.inl ?_⟩ <;>
        simp only [navPrev, if_pos hc1, hgl, (celebClear_fields s).1,
          (celebClear_fields s).2.1]
    · refine ⟨?_, Or.inr (Or.inl ⟨?_, hc1.2⟩)⟩ <;>
        simp only [navPrev, if_pos hc1, hgl, (celebClear_fields s).1,
          (celebClear_fields s).2.1]
  · by_cases hc2 : 0 < s.currentHistoryIndex
    · rcases hg2 : s.topicHistoryFull.get? (s.currentHistoryIndex - 1).toNat
        with _ | pt
      · refine ⟨?_, Or.inl ?_⟩ <;>
          simp only [navPrev, if_neg hc1, if_pos hc2, hg2,
            (celebClear_fields s).1, (celebClear_fields s).2.1]
      · refine ⟨?_, Or.inr (Or.inr ⟨?_, hc2⟩)⟩ <;>
          simp only [navPrev, if_neg hc1, if_pos hc2, hg2,
            (celebClear_fields s).1, (celebClear_fields s).2.1]
    · refine ⟨?_, Or.inl ?_⟩ <;>
        simp only [navPrev, if_neg hc1, if_neg hc2,
          (celebClear_fields s).1, (celebClear_fields s).2.1]

/-- `navigateToNext` never changes the list; the cursor stays, is reset
to the live-generation sentinel, or steps forward within bounds. -/
theorem navNext_char (s : Store) (u : Bool) :
    (navNext s u).1.topicHistoryFull = s.topicHistoryFull ∧
    ((navNext s u).1.currentHistoryIndex = s.currentHistoryIndex ∨
     (navNext s u).1.currentHistoryIndex = -1 ∨
     ((navNext s u).1.currentHistoryIndex = s.currentHistoryIndex + 1 ∧
       0 ≤ s.currentHistoryIndex ∧
       s.currentHistoryIndex < (s.topicHistoryFull.length : Int) - 1)) := by
  by_cases hc1 : 0 ≤ s.currentHistoryIndex ∧
      s.currentHistoryIndex < (s.topicHistoryFull.length : Int) - 1
  · rcases hg2 : s.topicHistoryFull.get? (s.currentHistoryIndex + 1).toNat
      with _ | nt
    · refine ⟨?_, Or.inl ?_⟩ <;> simp only [navNext, if_pos hc1, hg2]
    · refine ⟨?_, Or.inr (Or.inr ⟨?_, hc1.1, hc1.2⟩)⟩ <;>
        simp only [navNext, if_pos hc1, hg2]
  · by_cases hc2 : s.currentHistoryIndex = (s.topicHistoryFull.length : Int) - 1 ∨
        s.currentHistoryIndex = -1
    · rcases hcp : s.conceptProgress with _ | p
      · refine ⟨?_, Or.inl ?_⟩ <;>
          simp only [navNext, if_neg hc1, if_pos hc2, hcp]
      · by_cases hcompl : p.completed = false
        · by_cases h3 : u = true ∧ strFalsy s.currentCourseId = false ∧
              strFalsy s.currentSubjectName = false ∧
              strFalsy s.currentConceptName = false
          · refine ⟨?_, Or.inr (Or.inl ?_)⟩ <;>
              simp only [navNext, if_neg hc1, if_pos hc2, hcp, if_pos hcompl,
                if_pos h3, startGen]
          · refine ⟨?_, Or.inl ?_⟩ <;>
              simp only [navNext, if_neg hc1, if_pos hc2, hcp, if_pos hcompl,
                if_neg h3]
        · refine ⟨?_, Or.inl ?_⟩ <;>
            simp only [navNext, if_neg hc1, if_pos hc2, hcp, if_neg hcompl]
    · refine ⟨?_, Or.inl ?_⟩ <;> simp only [navNext, if_neg hc1, if_neg hc2]


theorem storeStep_lower (s : Store) (e : StoreEv)
    (h : -1 ≤ s.currentHistoryIndex) :
    -1 ≤ (storeStep s e).currentHistoryIndex := by
  cases e with
  | startGenEv c sub con =>
    show -1 ≤ (startGen s c sub con).currentHistoryIndex
    rw [(startGen_char s c sub con).2]
  | completeTopicEv r =>
    show -1 ≤ (completeTopic s r).currentHistoryIndex
    rcases completeTopic_char s r with ⟨_, hi⟩ | ⟨_, hi⟩
    · rw [hi]; exact h
    · rw [hi, Int.ofNat_eq_coe]; omega
  | loadHistoryEv r =>
    show -1 ≤ (loadHistory s r).currentHistoryIndex
    rcases loadHistory_char s r with ⟨_, hi⟩ | ⟨topics, _, hcase⟩
    · rw [hi]; exact h
    · rcases hcase with ⟨_, _, hi⟩ | ⟨_, _, hi⟩
      · rw [hi]; exact h
      · rw [hi, Int.ofNat_eq_coe]; omega
  | navPrevEv =>
    show -1 ≤ (navPrev s).currentHistoryIndex
    rcases (navPrev_char s).2 with hi | ⟨hi, _⟩ | ⟨hi, hpos⟩
    · rw [hi]; exact h
    · rw [hi, Int.ofNat_eq_coe]; omega
    · rw [hi]; omega
  | navNextEv u =>
    show -1 ≤ (navNext s u).1.currentHistoryIndex
    rcases (navNext_char s u).2 with hi | hi | ⟨hi, hge, _⟩
    · rw [hi]; exact h
    · rw [hi]
    · rw [hi]; omega
  | clearContentEv =>
    show -1 ≤ (clearContent s).currentHistoryIndex
    rw [(clearContent_char s).2]
    exact h

theorem storeStep_inv (s : Store) (e : StoreEv) (hinv : cursorInv s)
    (hsafe : ∀ r, e = .loadHistoryEv (some r) → r = [] →
      s.currentHistoryIndex = -1) :
    cursorInv (storeStep s e) := by
  unfold cursorInv at hinv
  cases e with
  | startGenEv c sub con =>
    show cursorInv (startGen s c sub con)
    exact Or.inl (startGen_char s c sub con).2
  | completeTopicEv r =>
    show cursorInv (completeTopic s r)
    unfold cursorInv
    rcases completeTopic_char s r with ⟨hl, hi⟩ | ⟨hl, hi⟩
    · rw [hl, hi]; exact hinv
    · refine Or.inr ⟨?_, ?_⟩
      · rw [hi, Int.ofNat_eq_coe]; omega
      · rw [hi, hl, Int.ofNat_eq_coe]
        push_cast
        omega
  | loadHistoryEv r =>
    show cursorInv (loadHistory s r)
    unfold cursorInv
    rcases loadHistory_char s r with ⟨hl, hi⟩ | ⟨topics, hr, hcase⟩
    · rw [hl, hi]; exact hinv
    · rcases hcase with ⟨htnil, hl, hi⟩ | ⟨hpos, hl, hi⟩
      · refine Or.inl ?_
        rw [hi]
        exact hsafe topics (by rw [hr]) htnil
      · refine Or.inr ⟨?_, ?_⟩
        · rw [hi, Int.ofNat_eq_coe]; omega
        · rw [hi, hl, Int.ofNat_eq_coe]
          omega
  | navPrevEv =>
    show cursorInv (navPrev s)
    unfold cursorInv
    rcases (navPrev_char s) with ⟨hl, hi | ⟨hi, hpos⟩ | ⟨hi, hpos⟩⟩
    · rw [hl, hi]; exact hinv
    · refine Or.inr ⟨?_, ?_⟩
      · rw [hi, Int.ofNat_eq_coe]; omega
      · rw [hi, hl, Int.ofNat_eq_coe]
        omega
    · rcases hinv with hm | ⟨hge, hlt⟩
      · rw [hm] at hpos; exact absurd hpos (by decide)
      · refine Or.inr ⟨?_, ?_⟩
        · rw [hi]; omega
        · rw [hi, hl]; omega
  | navNextEv u =>
    show cursorInv (navNext s u).1
    unfold cursorInv
    rcases (navNext_char s u) with ⟨hl, hi | hi | ⟨hi, hge, hlt⟩⟩
    · rw [hl, hi]; exact hinv
    · exact Or.inl hi
    · refine Or.inr ⟨?_, ?_⟩
      · rw [hi]; omega
      · rw [hi, hl]; omega
  | clearContentEv =>
    show cursorInv (clearContent s)
    unfold cursorInv
    rw [(clearContent_char s).1, (clearContent_char s).2]
    exact hinv


theorem runStore_inv (evs : List StoreEv) :
    ∀ s : Store, -1 ≤ s.currentHistoryIndex →
    (-1 ≤ (evs.foldl storeStep s).currentHistoryIndex ∧
     (cursorInv s → safeLoads s evs = true →
       cursorInv (evs.foldl storeStep s))) := by
  induction evs with
  | nil => intro s h; exact ⟨h, fun hi _ => hi⟩
  | cons e rest ih =>
    intro s h
    rw [List.foldl_cons]
    have h1 := storeStep_lower s e h
    rcases ih (storeStep s e) h1 with ⟨a, b⟩
    refine ⟨a, ?_⟩
    intro hi hsafe
    unfold safeLoads at hsafe
    rw [Bool.and_eq_true] at hsafe
    refine b ?_ hsafe.2
    apply storeStep_inv s e hi
    intro r her hr
    subst her
    subst hr
    have := hsafe.1
    simp only [beq_iff_eq] at this
    exact this

/-- **C10** (counterexample).  A successful `loadTopicHistory` that
returns one topic moves the cursor to index 0; a second successful load
that returns the empty list replaces the history list but leaves the
cursor untouched, so the store ends with `currentHistoryIndex = 0` while
`topicHistoryFull.length = 0` — the cursor is at (not below) the list
length, violating the claimed range invariant. -/
theorem c10_counterexample :
    (runStore [.loadHistoryEv (some [⟨"t1".data, none, 1⟩]),
               .loadHistoryEv (some [])]).currentHistoryIndex = 0 ∧
    (runStore [.loadHistoryEv (some [⟨"t1".data, none, 1⟩]),
               .loadHistoryEv (some [])]).topicHistoryFull.length = 0 ∧
    ¬ cursorInv (runStore [.loadHistoryEv (some [⟨"t1".data, none, 1⟩]),
                           .loadHistoryEv (some [])]) := by
  refine ⟨rfl, rfl, ?_⟩
  decide

/-- **C10** (amended).  The claimed invariant fails as stated, because a
successful empty-list `loadTopicHistory` replaces the history list
without resetting the cursor.  What does hold from the initial store,
for every sequence of store operations: the cursor never goes below the
live-generation sentinel `-1`; and whenever every empty-list history
load in the sequence arrives while the cursor is at `-1` (the predicate
`safeLoads`, which holds in particular for every sequence with no
empty-list load), the final cursor is `-1` or a valid index `i` with
`0 ≤ i < topicHistoryFull.length`. -/
theorem c10_cursor_range_amended (evs : List StoreEv) :
    -1 ≤ (runStore evs).currentHistoryIndex ∧
    (safeLoads initStore evs = true → cursorInv (runStore evs)) := by
  have h := runStore_inv evs initStore (by decide)
  exact ⟨h.1, fun hs => h.2 (Or.inl rfl) hs⟩

/-- **C10** witness: a concrete five-operation run (start a generation,
load a one-topic history, navigate back, navigate forward, clear) whose
loads are all safe, so the amended theorem yields the full cursor-range
invariant at the end. -/
theorem c10_witness :
    -1 ≤ (runStore [.startGenEv "c1".data "Calculus".data none,
        .loadHistoryEv (some [⟨"Limits".data, some "body".data, 2⟩]),
        .navPrevEv, .navNextEv false, .clearContentEv]).currentHistoryIndex ∧
    cursorInv (runStore [.startGenEv "c1".data "Calculus".data none,
        .loadHistoryEv (some [⟨"Limits".data, some "body".data, 2⟩]),
        .navPrevEv, .navNextEv false, .clearContentEv]) :=
  ⟨(c10_cursor_range_amended _).1,
   (c10_cursor_range_amended _).2 (by decide)⟩

end CalcAgent
